import Mathlib

/-!
Verification of the generalized suffix tree / longest-common-substring
program in src/qlcs/qlcs.py.

The Python program is shallowly embedded: the node graph becomes a list of
node records indexed by identifier (the Python identifier counter allocates
0, 1, 2, ... in creation order, with the root taking identifier 0 of each
tree), Python dicts become insertion-ordered association lists, and the
imperative Ukkonen loops become fueled structural recursions.  All
definitions follow the Python source line by line.
-/

namespace QLCS

/-- Python constant END_OF_STRING = 10**10, used as "infinity" end index. -/
def END_OF_STRING : Nat := 10 ^ 10

/-- One suffix tree node (Python SuffixTreeNode).  The node's identifier is
its position in the tree's node list, mirroring the global creation
counter.  The Python field `end` is named `endIdx` (`end` is reserved). -/
structure STNode where
  start : Nat
  endIdx : Nat
  parent : Option Nat
  suffix_link : Option Nat
  edges : List (Char × Nat)
  bit_vector : Nat
deriving Repr, DecidableEq

/-- Default node used for out-of-range lookups (never hit on the runs the
program actually performs; Python would raise instead). -/
def dfltNode : STNode :=
  { start := 0, endIdx := 0, parent := none, suffix_link := none,
    edges := [], bit_vector := 0 }

/-- The suffix tree state (Python SuffixTree).  `nodes` is the arena of all
nodes, the root being node 0. -/
structure SuffixTree where
  nodes : List STNode
  input_string : List Char
  strings_count : Nat
  leaves : List Nat
  classes : List (String × List Nat)
deriving Repr, DecidableEq

/-- SuffixTree.__init__: a fresh tree with only the root node
(SuffixTreeNode() has start=0, end=END_OF_STRING). -/
def SuffixTree.empty : SuffixTree :=
  { nodes := [{ start := 0, endIdx := END_OF_STRING, parent := none,
                suffix_link := none, edges := [], bit_vector := 0 }],
    input_string := [], strings_count := 0, leaves := [], classes := [] }

/-- Read node `i` of the arena. -/
def getN (nodes : List STNode) (i : Nat) : STNode := nodes.getD i dfltNode

/-- Write node `i` of the arena (out of range: no-op, as in List.set). -/
def setN (nodes : List STNode) (i : Nat) (n : STNode) : List STNode :=
  nodes.set i n

/-- Update node `i` by a record update. -/
def modifyN (nodes : List STNode) (i : Nat) (f : STNode → STNode) : List STNode :=
  setN nodes i (f (getN nodes i))

/-- Python input_string[i] (always in range on real runs). -/
def charAt (s : List Char) (i : Nat) : Char := s.getD i '?'

/-- Python slice input_string[a:b] (clamping exactly as Python does for
b beyond the end). -/
def slice (s : List Char) (a b : Nat) : List Char := (s.drop a).take (b - a)

/-- Dict assignment d[k] = v on an insertion-ordered association list:
overwriting keeps the key's position, new keys go to the back (CPython
dict semantics). -/
def edgesInsert : List (Char × Nat) → Char → Nat → List (Char × Nat)
  | [], c, v => [(c, v)]
  | (k, w) :: t, c, v =>
      if k = c then (c, v) :: t else (k, w) :: edgesInsert t c v

/-- Dict lookup d.get(k) on the edges association list. -/
def edgesLookup (es : List (Char × Nat)) (c : Char) : Option Nat :=
  match es.find? (fun e => e.1 = c) with
  | some e => some e.2
  | none => none

/-- SuffixTreeNode.add_child: allocate a fresh child node (next identifier
= arena size) under `parentId` with the given edge indices, and hang it on
the parent's edge dict.  Returns the new arena and the child's id. -/
def add_child (nodes : List STNode) (parentId : Nat) (key : Char)
    (s e : Nat) : List STNode × Nat :=
  let id := nodes.length
  let child : STNode :=
    { start := s, endIdx := e, parent := some parentId, suffix_link := none,
      edges := [], bit_vector := 0 }
  let nodes := nodes ++ [child]
  let nodes := modifyN nodes parentId
    (fun n => { n with edges := edgesInsert n.edges key id })
  (nodes, id)

/-- SuffixTreeNode.add_exisiting_node_as_child: re-parent `childId` under
`parentId` and register it in the parent's edge dict. -/
def add_existing_as_child (nodes : List STNode) (parentId : Nat) (key : Char)
    (childId : Nat) : List STNode :=
  let nodes := modifyN nodes childId (fun n => { n with parent := some parentId })
  modifyN nodes parentId (fun n => { n with edges := edgesInsert n.edges key childId })

/-- SuffixTreeNode.get_edge_length(current_index). -/
def get_edge_length (n : STNode) (current_index : Nat) : Nat :=
  min n.endIdx (current_index + 1) - n.start

/-- The mutable state of the Ukkonen main loop inside append_string. -/
structure UkkState where
  nodes : List STNode
  active_node : Nat
  active_edge : Nat
  active_length : Nat
  remainder : Nat
  new_leaves : List Nat
deriving Repr, DecidableEq

/-- The step at the end of each explicit insertion: follow the suffix link
(or go to root), or at root shrink the active length (qlcs.py lines
207-212).  `remainder` has already been decremented. -/
def followLink (index : Nat) (st : UkkState) : UkkState :=
  if st.active_node = 0 ∧ st.active_length > 0 then
    { st with active_length := st.active_length - 1,
              active_edge := index + 1 - st.remainder }
  else
    { st with active_node :=
        ((getN st.nodes st.active_node).suffix_link).getD 0 }

/-- Outcome of one iteration of the `while remainder > 0` loop: either the
loop breaks (Python `break` of rule 3), or it continues with an updated
previous_node and state. -/
inductive StepRes where
  | stop : UkkState → StepRes
  | next : Option Nat → UkkState → StepRes
deriving Repr

/-- Optionally set previous_node's suffix link (the "suffix link magic"
of qlcs.py). -/
def linkPrev (nodes : List STNode) (previous : Option Nat) (target : Nat) :
    List STNode :=
  match previous with
  | some p => modifyN nodes p (fun n => { n with suffix_link := some target })
  | none => nodes

/-- The leaf-creation branch of the insertion loop (qlcs.py lines
154-166), up to but excluding the follow-link step. -/
def makeLeaf (strIdx index : Nat) (previous : Option Nat) (st : UkkState)
    (c : Char) : UkkState :=
  let res := add_child st.nodes st.active_node c index END_OF_STRING
  let nodes := modifyN res.1 res.2 (fun n => { n with bit_vector := 2 ^ strIdx })
  { st with nodes := linkPrev nodes previous st.active_node,
            new_leaves := st.new_leaves ++ [res.2],
            remainder := st.remainder - 1 }

/-- The edge-splitting branch of the insertion loop (qlcs.py lines
188-203), up to but excluding the follow-link step. -/
def makeSplit (input : List Char) (strIdx index : Nat) (previous : Option Nat)
    (st : UkkState) (c : Char) (nextId : Nat) : UkkState :=
  let nx := getN st.nodes nextId
  let res := add_child st.nodes st.active_node c nx.start
    (nx.start + st.active_length)
  let splitId := res.2
  let nodes := modifyN res.1 nextId
    (fun n => { n with start := n.start + st.active_length })
  let nodes := add_existing_as_child nodes splitId
    (charAt input (getN nodes nextId).start) nextId
  let res2 := add_child nodes splitId (charAt input index) index END_OF_STRING
  let nodes := modifyN res2.1 res2.2 (fun n => { n with bit_vector := 2 ^ strIdx })
  { st with nodes := linkPrev nodes previous splitId,
            new_leaves := st.new_leaves ++ [res2.2],
            remainder := st.remainder - 1 }

/-- One iteration of the `while remainder > 0` loop of append_string
(qlcs.py lines 150-212) for symbol position `index` of string number
`strIdx`; `previous` is the previous_node variable.  The caller has
already made sure remainder > 0. -/
def ukkStep (input : List Char) (strIdx index : Nat) (previous : Option Nat)
    (st : UkkState) : StepRes :=
  let st := if st.active_length = 0 then { st with active_edge := index } else st
  let c := charAt input st.active_edge
  match edgesLookup (getN st.nodes st.active_node).edges c with
  | none =>
      -- no edge starting with the current char: create a new leaf
      .next (some st.active_node)
        (followLink index (makeLeaf strIdx index previous st c))
  | some nextId =>
      let nx := getN st.nodes nextId
      let elen := get_edge_length nx index
      if st.active_length ≥ elen then
        -- walking down through the edge (no remainder decrement)
        .next previous
          { st with active_edge := st.active_edge + elen,
                    active_length := st.active_length - elen,
                    active_node := nextId }
      else if charAt input (nx.start + st.active_length) = charAt input index then
        -- rule 3: the suffix is already on the edge; break out of the loop
        .stop { st with nodes := linkPrev st.nodes previous st.active_node,
                        active_length := st.active_length + 1 }
      else
        -- splitting the edge
        .next (some st.nodes.length)
          (followLink index (makeSplit input strIdx index previous st c nextId))

/-- The `while remainder > 0` loop itself, as a fueled recursion over
iterations of ukkStep. -/
def ukkInner (input : List Char) (strIdx index : Nat) :
    Nat → Option Nat → UkkState → UkkState
  | 0, _, st => st
  | fuel + 1, previous, st =>
      if st.remainder = 0 then st
      else
        match ukkStep input strIdx index previous st with
        | .stop st' => st'
        | .next p st' => ukkInner input strIdx index fuel p st'

/-- The `for index in range(start_index, len(input_string))` loop of
append_string: bump remainder and run the inner loop at each index. -/
def ukkOuter (input : List Char) (strIdx fuel : Nat) :
    List Nat → UkkState → UkkState
  | [], st => st
  | index :: rest, st =>
      let st := { st with remainder := st.remainder + 1 }
      ukkOuter input strIdx fuel rest (ukkInner input strIdx index fuel none st)

/-- Registering the new string's index in its class
(qlcs.py lines 127-133): dict-of-lists append with KeyError fallback. -/
def classesAdd : List (String × List Nat) → String → Nat → List (String × List Nat)
  | [], k, i => [(k, [i])]
  | (k', l) :: t, k, i =>
      if k' = k then (k', l ++ [i]) :: t else (k', l) :: classesAdd t k i

/-- The text appended to the buffer for string number `i` with content
`s`: the string followed by the terminator `'$' + str(i)` of the Python
source. -/
def appendedOf (i : Nat) (s : List Char) : List Char :=
  s ++ '$' :: Nat.toDigits 10 i

/-- Fuel given to every inner-loop run of one append (generous; all the
invariants proved below hold for every fuel value). -/
def appendFuel (input : List Char) (t : SuffixTree) : Nat :=
  (input.length + 2) * (input.length + t.nodes.length + 4) + 8

/-- The Ukkonen main loop of append_string run over the newly appended
symbol range, starting from a fresh active point at the root. -/
def appendUkk (t : SuffixTree) (s : List Char) : UkkState :=
  let i := t.strings_count
  let input := t.input_string ++ appendedOf i s
  ukkOuter input i (appendFuel input t)
    (List.range' t.input_string.length (appendedOf i s).length)
    { nodes := t.nodes, active_node := 0, active_edge := 0,
      active_length := 0, remainder := 0, new_leaves := [] }

/-- SuffixTree.append_string(input_string, class_id).  The terminator
appended is '$' followed by the decimal digits of the string's index,
exactly as in the Python source (`'$' + str(current_string_index)`). -/
def append_string (t : SuffixTree) (s : List Char) (class_id : Option String) :
    SuffixTree :=
  let i := t.strings_count
  let input := t.input_string ++ appendedOf i s
  let st := appendUkk t s
  -- update leaves ends from "infinity" to the actual string end
  let nodes := st.new_leaves.foldl
    (fun ns l => modifyN ns l (fun n => { n with endIdx := input.length })) st.nodes
  { nodes := nodes, input_string := input, strings_count := i + 1,
    leaves := t.leaves ++ st.new_leaves,
    classes := classesAdd t.classes (class_id.getD ("$" ++ Nat.repr i)) i }

/-- Build a tree by appending each (string, optional class id) in order. -/
def buildTree (inputs : List (List Char × Option String)) : SuffixTree :=
  inputs.foldl (fun t p => append_string t p.1 p.2) SuffixTree.empty

/-- SuffixTree.is_successful(bit_vector): every class has at least one
representative whose bit is set. -/
def is_successful (classes : List (String × List Nat)) (bv : Nat) : Bool :=
  classes.all (fun c => c.2.any (fun r => (bv >>> r) % 2 = 1))

/-- The division loop of _extract_identifiers, fueled (the fuel only needs
to dominate the number of halvings of the bit vector). -/
def extract_identifiers_go : Nat → Nat → Nat → List Nat
  | 0, _, _ => []
  | fuel + 1, bv, idx =>
      if bv = 0 then []
      else
        (if bv % 2 = 1 then [idx] else []) ++
          extract_identifiers_go fuel (bv / 2) (idx + 1)

/-- _extract_identifiers(bit_vector): the list of set bit positions,
least significant first. -/
def extract_identifiers (bv : Nat) : List Nat :=
  extract_identifiers_go (bv + 1) bv 0

/-- Python list_.strip('0123456789'): drop decimal digits from both ends. -/
def stripDigits (s : List Char) : List Char :=
  ((s.dropWhile Char.isDigit).reverse.dropWhile Char.isDigit).reverse

/-- Python input_string.split('$'). -/
def splitOnChar : List Char → Char → List (List Char)
  | [], _ => [[]]
  | c :: t, sep =>
      let r := splitOnChar t sep
      if c = sep then [] :: r
      else
        match r with
        | h :: t' => (c :: h) :: t'
        | [] => [[c]]

/-- SuffixTree.get_string_lengths: split the buffer on '$', strip digits
from both ends of each piece, return the lengths. -/
def get_string_lengths (input : List Char) : List Nat :=
  (splitOnChar input '$').map (fun s => (stripDigits s).length)

/-- re.sub(r'(.*?)\$?\d*$', r'\1', s): remove the longest suffix made of an
optional '$' followed by decimal digits. -/
def stripTerm (s : List Char) : List Char :=
  let r := s.reverse.dropWhile Char.isDigit
  let r := match r with
           | '$' :: t => t
           | _ => r
  r.reverse

/-- In-place list update used for the per-string position buckets (Python
return_value[identifiers].append(...)). -/
def listModify {α : Type} : List α → Nat → (α → α) → List α
  | [], _, _ => []
  | h :: t, 0, f => f h :: t
  | h :: t, n + 1, f => h :: listModify t n f

/-- SuffixTree._format_positions(positions, node_substr_len, matching_len,
sizes): turn (string id, offset-from-last) pairs into per-string lists of
absolute offsets.  The arithmetic is over ℤ, as in Python, because
`from_last - node_substr_len` can be negative. -/
def format_positions (strings_count : Nat) (positions : List (Nat × Nat))
    (node_substr_len matching_len : Nat) (sizes : List Nat) : List (List Int) :=
  positions.foldl
    (fun rv p =>
      let index : Int := (sizes.getD p.1 0 : Int)
        - ((p.2 : Int) - (node_substr_len : Int)) - (matching_len : Int)
      listModify rv p.1 (· ++ [index]))
    (List.replicate strings_count [])

/-- SuffixTree.find_leaves_in_subtree(root): depth (in symbols, truncated
at the '$' of an edge that contains one) of each leaf below `id`, tagged
with the string identifiers extracted from the bit vector.  Fueled tree
recursion over the child edges in dict order. -/
def find_leaves_in_subtree (nodes : List STNode) (input : List Char) :
    Nat → Nat → List (Nat × Nat)
  | 0, _ => []
  | fuel + 1, id =>
      let n := getN nodes id
      let label := slice input n.start n.endIdx
      match label.findIdx? (fun c => c = '$') with
      | some substr_len =>
          (extract_identifiers n.bit_vector).map (fun a => (a, substr_len))
      | none =>
          n.edges.foldl
            (fun vals e =>
              vals ++ (find_leaves_in_subtree nodes input fuel e.2).map
                (fun p => (p.1, p.2 + (n.endIdx - n.start))))
            []

/-- The upward walk of find_common_substrings (qlcs.py lines 227-241) from
one leaf: propagate the accumulated bit vector into each ancestor, record
the nodes whose vector is_successful, stop early at an ancestor already
containing the accumulated vector.  The Python candidate set is modelled
as a deduplicating insertion-ordered list. -/
def walkUp (classes : List (String × List Nat)) :
    Nat → Option Nat → Nat → List STNode → List Nat → List STNode × List Nat
  | 0, _, _, nodes, lcas => (nodes, lcas)
  | _ + 1, none, _, nodes, lcas => (nodes, lcas)
  | fuel + 1, some id, prev, nodes, lcas =>
      let n := getN nodes id
      if prev ≠ 0 ∧ (n.bit_vector ||| prev) = n.bit_vector then (nodes, lcas)
      else
        let bv := n.bit_vector ||| prev
        let nodes := setN nodes id { n with bit_vector := bv }
        let lcas :=
          if is_successful classes bv then
            (if id ∈ lcas then lcas else lcas ++ [id])
          else lcas
        walkUp classes fuel n.parent bv nodes lcas

/-- Label of the path from the root down to `id` (the reconstruction loop
of find_common_substrings, qlcs.py lines 251-255): concatenation of the
edge labels, excluding the root's. -/
def pathLabel (nodes : List STNode) (input : List Char) :
    Nat → Nat → List Char
  | 0, _ => []
  | fuel + 1, id =>
      let n := getN nodes id
      match n.parent with
      | none => []
      | some p => pathLabel nodes input fuel p ++ slice input n.start n.endIdx

/-- SuffixTree.find_common_substrings(min_substr_len): phase 1 propagates
bit vectors upward from every leaf collecting candidate ancestors, phase 2
reconstructs, strips and filters each candidate's substring and resolves
its occurrence positions.  Returns the result mapping (an
insertion-ordered association list keyed by the substring text) together
with the mutated tree. -/
def find_common_substrings (t : SuffixTree) (min_substr_len : Nat) :
    List (List Char × List (List Int)) × SuffixTree :=
  let wf := t.nodes.length + 2
  let pr := t.leaves.foldl
    (fun pr leaf => walkUp t.classes wf (some leaf) 0 pr.1 pr.2)
    (t.nodes, ([] : List Nat))
  let nodes := pr.1
  let sizes := get_string_lengths t.input_string
  let out := pr.2.foldl
    (fun (acc : List (List Char) × List (List Char × List (List Int))) ca =>
      let n := getN nodes ca
      let cs := stripTerm (pathLabel nodes t.input_string wf ca)
      if min_substr_len ≤ cs.length ∧ cs ∉ acc.1 then
        let positions := find_leaves_in_subtree nodes t.input_string wf ca
        let formatted := format_positions t.strings_count positions
          (n.endIdx - n.start) cs.length sizes
        (acc.1 ++ [cs], acc.2 ++ [(cs, formatted)])
      else acc)
    ([], [])
  (out.2, { t with nodes := nodes })

/-! ### Concrete scenario trees from the specification -/

/-- Scenario A tree: a single append of "xabxac" with no class id. -/
def treeA : SuffixTree := buildTree [("xabxac".toList, none)]

/-- Scenario A extraction with min_substr_len 1. -/
def resultA1 : List (List Char × List (List Int)) :=
  (find_common_substrings treeA 1).1

/-- Scenario A extraction with the default min_substr_len 2. -/
def resultA2 : List (List Char × List (List Int)) :=
  (find_common_substrings treeA 2).1

/-- Scenario B tree: "abcdef" in class A, then "xyzabc" in class B. -/
def treeB : SuffixTree :=
  buildTree [("abcdef".toList, some "A"), ("xyzabc".toList, some "B")]

/-- Scenario B extraction (first call). -/
def resultB : List (List Char × List (List Int)) :=
  (find_common_substrings treeB 2).1

/-- The scenario B tree as mutated by the first extraction call. -/
def treeBAfter : SuffixTree := (find_common_substrings treeB 2).2

/-- Scenario B extraction repeated on the mutated tree (second call). -/
def resultBSecond : List (List Char × List (List Int)) :=
  (find_common_substrings treeBAfter 2).1

/-- Scenario D probe: appending the string "a$b", which contains the
reserved terminator delimiter '$'. -/
def treeD : SuffixTree := append_string SuffixTree.empty "a$b".toList none

/-- C8 probe: an unclassed append followed by an append whose explicit
class id collides with the synthetic class name "$0". -/
def treeCollide : SuffixTree :=
  buildTree [("a".toList, none), ("b".toList, some "$0")]

/-! ### Derived notions used in theorem statements -/

/-- Number of symbols appended to the buffer for string number `i` with
content `s`: the string itself, the delimiter '$', and the decimal digits
of `i`. -/
def appendedLen (i : Nat) (s : List Char) : Nat :=
  s.length + 1 + (Nat.toDigits 10 i).length

/-- One step up the parent relation. -/
def parentStep (nodes : List STNode) : Option Nat → Option Nat
  | none => none
  | some id => (getN nodes id).parent

/-- A parent chain terminates (reaches the root and falls off it). -/
def reachesNone (nodes : List STNode) (o : Option Nat) : Prop :=
  ∃ k, (parentStep nodes)^[k] o = none

/-- The parent chain starting at a node: the node itself, then its
ancestors, fueled. -/
def chainF (nodes : List STNode) : Nat → Option Nat → List Nat
  | 0, _ => []
  | _ + 1, none => []
  | fuel + 1, some id => id :: chainF nodes fuel (getN nodes id).parent

/-- The strict ancestors of a node (its parent chain without itself). -/
def properChain (nodes : List STNode) (id : Nat) : List Nat :=
  chainF nodes (nodes.length + 1) (getN nodes id).parent

/-- Bitwise OR, over the recorded leaves whose parent chain passes through
`id` (i.e. the recorded leaves in the subtree of `id`, the node itself
included when it is a recorded leaf), of the leaf's bit vector. -/
def subtreeOr (nodes : List STNode) (leaves : List Nat) (id : Nat) : Nat :=
  leaves.foldl
    (fun acc l =>
      if id ∈ chainF nodes (nodes.length + 2) (some l) then
        acc ||| (getN nodes l).bit_vector
      else acc)
    0

/-- Whether `id` occurs among the first `d` positions of the parent chain
of `l` (used as the frontier marker of the upward propagation walk). -/
def posHit (nodes : List STNode) (l d id : Nat) : Bool :=
  (List.range d).any (fun e => (parentStep nodes)^[e] (some l) = some id)

/-- Decimal read-back of a digit list (used to invert Nat.toDigits). -/
def ofDecDigits (a : Nat) (l : List Char) : Nat :=
  l.foldl (fun x c => 10 * x + (c.toNat - 48)) a

/-- The node arena produced by the leaf-creation branch, as a function of
the arena, the active node and the edge key. -/
def leafNodes (strIdx index : Nat) (prev : Option Nat) (nodes : List STNode)
    (A : Nat) (c : Char) : List STNode :=
  linkPrev
    (modifyN (add_child nodes A c index END_OF_STRING).1 nodes.length
      (fun n => { n with bit_vector := 2 ^ strIdx }))
    prev A

/-- The node arena produced by the edge-splitting branch, as a function of
the arena, the active node, the edge key, the split edge's target and the
active length. -/
def splitNodes (input : List Char) (strIdx index : Nat) (prev : Option Nat)
    (nodes : List STNode) (A : Nat) (c : Char) (nextId alen : Nat) :
    List STNode :=
  let nx := getN nodes nextId
  let res := add_child nodes A c nx.start (nx.start + alen)
  let ns := modifyN res.1 nextId (fun n => { n with start := n.start + alen })
  let ns := add_existing_as_child ns res.2 (charAt input (getN ns nextId).start)
    nextId
  let res2 := add_child ns res.2 (charAt input index) index END_OF_STRING
  let ns := modifyN res2.1 res2.2 (fun n => { n with bit_vector := 2 ^ strIdx })
  linkPrev ns prev res.2

/-- Structural well-formedness of a node arena together with its recorded
leaf list, maintained by the construction and consumed by the analysis of
the extraction phase: the root exists; parent, suffix-link and edge
targets are allocated; every edge target's parent points back at the edge
source; a node is the target of at most one edge; every parent chain
falls off the root within nodes-many steps; recorded leaves are
allocated; unrecorded nodes carry an empty bit vector; and no recorded
leaf has a strict ancestor recorded after it. -/
def Wf (nodes : List STNode) (leaves : List Nat) : Prop :=
  1 ≤ nodes.length ∧
  (∀ id p, (getN nodes id).parent = some p → p < nodes.length) ∧
  (∀ id q, (getN nodes id).suffix_link = some q → q < nodes.length) ∧
  (∀ p ch cid, edgesLookup (getN nodes p).edges ch = some cid →
    cid < nodes.length) ∧
  (∀ p ch cid, edgesLookup (getN nodes p).edges ch = some cid →
    (getN nodes cid).parent = some p) ∧
  (∀ p1 c1 p2 c2 cid, edgesLookup (getN nodes p1).edges c1 = some cid →
    edgesLookup (getN nodes p2).edges c2 = some cid → p1 = p2 ∧ c1 = c2) ∧
  (∀ id, ∃ k, k ≤ nodes.length ∧ (parentStep nodes)^[k] (some id) = none) ∧
  (∀ l ∈ leaves, l < nodes.length) ∧
  (∀ id, id ∉ leaves → (getN nodes id).bit_vector = 0) ∧
  List.Pairwise (fun x y => ∀ k, (parentStep nodes)^[k + 1] (some x) ≠ some y)
    leaves

/-- Well-formedness of an insertion-loop state relative to the leaves
recorded before this append began. -/
def UkkWf (oldLeaves : List Nat) (st : UkkState) : Prop :=
  Wf st.nodes (oldLeaves ++ st.new_leaves) ∧ st.active_node < st.nodes.length

/-- Well-formedness of a whole tree state. -/
def TreeWf (t : SuffixTree) : Prop := Wf t.nodes t.leaves

/-- The state carried on by an iteration of the insertion loop, whether it
breaks or continues. -/
def stepState : StepRes → UkkState
  | .stop st => st
  | .next _ st => st

/-- Two node arenas that agree everywhere except possibly in bit vectors. -/
def eqButBv (a b : List STNode) : Prop :=
  a.length = b.length ∧
  ∀ j : Nat,
    (getN a j).start = (getN b j).start ∧
    (getN a j).endIdx = (getN b j).endIdx ∧
    (getN a j).edges = (getN b j).edges ∧
    (getN a j).parent = (getN b j).parent ∧
    (getN a j).suffix_link = (getN b j).suffix_link

/-- Loop invariant of append_string: every leaf recorded so far in
new_leaves is an allocated node carrying exactly the current string's
bit. -/
def leavesTagged (strIdx : Nat) (st : UkkState) : Prop :=
  ∀ l ∈ st.new_leaves,
    l < st.nodes.length ∧ (getN st.nodes l).bit_vector = 2 ^ strIdx

/-- Tree invariant: every recorded leaf is an allocated node whose bit
vector is a single bit belonging to one of the appended strings. -/
def treeLeavesOk (t : SuffixTree) : Prop :=
  ∀ l ∈ t.leaves,
    l < t.nodes.length ∧
      ∃ i, i < t.strings_count ∧ (getN t.nodes l).bit_vector = 2 ^ i

/-- Total appended symbols of a suffix of the input sequence whose first
string gets index `k`. -/
def totalAppendedLenFrom (k : Nat) : List (List Char × Option String) → Nat
  | [] => 0
  | x :: xs => appendedLen k x.1 + totalAppendedLenFrom (k + 1) xs

/-- Total number of symbols appended to the buffer over a whole input
sequence. -/
def totalAppendedLen (inputs : List (List Char × Option String)) : Nat :=
  totalAppendedLenFrom 0 inputs

/-- The class key chosen by append_string for string number `i` with the
optional explicit class id `c`. -/
def classKeyOf (i : Nat) (c : Option String) : String :=
  c.getD ("$" ++ Nat.repr i)

/-- The classes mapping accumulated over a suffix of the input sequence
whose first string gets index `k`. -/
def classesFoldFrom (k : Nat) (cs : List (String × List Nat)) :
    List (List Char × Option String) → List (String × List Nat)
  | [] => cs
  | x :: xs => classesFoldFrom (k + 1) (classesAdd cs (classKeyOf k x.2) k) xs

/-! ### Arena lemmas -/

theorem length_setN (nodes : List STNode) (i : Nat) (n : STNode) :
    (setN nodes i n).length = nodes.length := List.length_set nodes i n

theorem getN_setN_self (nodes : List STNode) (i : Nat) (n : STNode)
    (h : i < nodes.length) : getN (setN nodes i n) i = n := by
  simp [getN, setN, List.getD_eq_getElem?_getD, List.getElem?_set_self, h]

theorem getN_setN_ne (nodes : List STNode) (i j : Nat) (n : STNode)
    (h : i ≠ j) : getN (setN nodes i n) j = getN nodes j := by
  simp [getN, setN, List.getD_eq_getElem?_getD, List.getElem?_set_ne, h]

theorem setN_oob (nodes : List STNode) (i : Nat) (n : STNode)
    (h : nodes.length ≤ i) : setN nodes i n = nodes := List.set_eq_of_length_le h

theorem getN_append_lt (a b : List STNode) (i : Nat) (h : i < a.length) :
    getN (a ++ b) i = getN a i := by
  simp [getN, List.getD_eq_getElem?_getD, List.getElem?_append, h]

theorem getN_append_self (a : List STNode) (n : STNode) :
    getN (a ++ [n]) a.length = n := by
  simp [getN, List.getD_eq_getElem?_getD]

theorem getN_oob (nodes : List STNode) (i : Nat) (h : nodes.length ≤ i) :
    getN nodes i = dfltNode := by
  simp [getN, List.getD_eq_getElem?_getD, List.getElem?_eq_none, h]

theorem length_modifyN (nodes : List STNode) (i : Nat) (f : STNode → STNode) :
    (modifyN nodes i f).length = nodes.length := length_setN _ _ _

theorem getN_modifyN_ne (nodes : List STNode) (i j : Nat) (f : STNode → STNode)
    (h : i ≠ j) : getN (modifyN nodes i f) j = getN nodes j :=
  getN_setN_ne _ _ _ _ h

theorem getN_modifyN_self (nodes : List STNode) (i : Nat) (f : STNode → STNode)
    (h : i < nodes.length) : getN (modifyN nodes i f) i = f (getN nodes i) :=
  getN_setN_self _ _ _ h

/-- A record update that preserves an observation `g` of a node preserves
that observation at every index. -/
theorem getN_modifyN_field {α : Type} (nodes : List STNode) (i : Nat)
    (f : STNode → STNode) (g : STNode → α) (hf : ∀ n, g (f n) = g n) (j : Nat) :
    g (getN (modifyN nodes i f) j) = g (getN nodes j) := by
  by_cases hij : i = j
  · subst hij
    by_cases h : i < nodes.length
    · rw [getN_modifyN_self _ _ _ h, hf]
    · rw [modifyN, setN_oob _ _ _ (le_of_not_lt h)]
  · rw [getN_modifyN_ne _ _ _ _ hij]

/-! ### Frame lemmas for find_common_substrings (C10) -/

theorem eqButBv_refl (a : List STNode) : eqButBv a a :=
  ⟨rfl, fun _ => ⟨rfl, rfl, rfl, rfl, rfl⟩⟩

theorem eqButBv_trans {a b c : List STNode} (h1 : eqButBv a b)
    (h2 : eqButBv b c) : eqButBv a c := by
  refine ⟨h1.1.trans h2.1, fun j => ?_⟩
  obtain ⟨s1, e1, d1, p1, l1⟩ := h1.2 j
  obtain ⟨s2, e2, d2, p2, l2⟩ := h2.2 j
  exact ⟨s1.trans s2, e1.trans e2, d1.trans d2, p1.trans p2, l1.trans l2⟩

theorem eqButBv_setBv (nodes : List STNode) (id bv : Nat) :
    eqButBv (setN nodes id { getN nodes id with bit_vector := bv }) nodes := by
  constructor
  · exact length_setN _ _ _
  · intro j
    by_cases hij : id = j
    · subst hij
      by_cases h : id < nodes.length
      · rw [getN_setN_self _ _ _ h]
        exact ⟨rfl, rfl, rfl, rfl, rfl⟩
      · rw [setN_oob _ _ _ (le_of_not_lt h)]
        exact ⟨rfl, rfl, rfl, rfl, rfl⟩
    · rw [getN_setN_ne _ _ _ _ hij]
      exact ⟨rfl, rfl, rfl, rfl, rfl⟩

/-- One-step unfolding of walkUp in the live case. -/
theorem walkUp_succ_some (classes : List (String × List Nat)) (fuel id prev : Nat)
    (nodes : List STNode) (lcas : List Nat) :
    walkUp classes (fuel + 1) (some id) prev nodes lcas =
      if prev ≠ 0 ∧ ((getN nodes id).bit_vector ||| prev) = (getN nodes id).bit_vector
      then (nodes, lcas)
      else
        walkUp classes fuel (getN nodes id).parent
          ((getN nodes id).bit_vector ||| prev)
          (setN nodes id
            { getN nodes id with
                bit_vector := (getN nodes id).bit_vector ||| prev })
          (if is_successful classes ((getN nodes id).bit_vector ||| prev) then
            (if id ∈ lcas then lcas else lcas ++ [id])
          else lcas) := rfl

theorem walkUp_eqButBv (classes : List (String × List Nat)) :
    ∀ (fuel : Nat) (o : Option Nat) (prev : Nat) (nodes : List STNode)
      (lcas : List Nat), eqButBv (walkUp classes fuel o prev nodes lcas).1 nodes := by
  intro fuel
  induction fuel with
  | zero => intro o prev nodes lcas; exact eqButBv_refl _
  | succ fuel ih =>
    intro o prev nodes lcas
    match o with
    | none => exact eqButBv_refl _
    | some id =>
      rw [walkUp_succ_some]
      split
      · exact eqButBv_refl _
      · exact eqButBv_trans (ih _ _ _ _) (eqButBv_setBv _ _ _)

theorem foldl_walkUp_eqButBv (classes : List (String × List Nat)) (wf : Nat)
    (leaves : List Nat) :
    ∀ pr : List STNode × List Nat,
      eqButBv
        (leaves.foldl
          (fun pr leaf => walkUp classes wf (some leaf) 0 pr.1 pr.2) pr).1
        pr.1 := by
  induction leaves with
  | nil => intro pr; exact eqButBv_refl _
  | cons l ls ih =>
      intro pr
      exact eqButBv_trans (ih _) (walkUp_eqButBv _ _ _ _ _ _)

/-- Unfolding the tree returned by find_common_substrings. -/
theorem find_common_substrings_snd (t : SuffixTree) (m : Nat) :
    (find_common_substrings t m).2 =
      { t with
          nodes :=
            (t.leaves.foldl
              (fun pr leaf =>
                walkUp t.classes (t.nodes.length + 2) (some leaf) 0 pr.1 pr.2)
              (t.nodes, [])).1 } := rfl

/-! ### Claim theorems (concrete scenarios) -/

/-- C1: the round-trip property fails on the code.  On the tree built by a
single append_string "xabxac", find_common_substrings with min length 2
reports the substring "xabxac" at offset 2 of string 0, but slicing
"xabxac" at offset 2 for the substring's length yields "bxac", not
"xabxac" (the offset arithmetic miscounts candidates whose own edge
contains the terminator). -/
theorem C1_roundtrip_fails_on_code :
    resultA2.lookup "xabxac".toList = some [[(2 : Int)]] ∧
    slice "xabxac".toList 2 (2 + "xabxac".toList.length) ≠ "xabxac".toList := by
  decide

/-- C2: append_string performs no input validation.  Appending "a$b",
which contains the reserved terminator delimiter '$', does not fail and
does not leave the tree unchanged: strings_count becomes 1, the buffer
becomes "a$b$0", 5 leaves are added, and get_string_lengths is corrupted
(it reports widths [1, 1, 0] although the appended string has length 3). -/
theorem C2_no_invalid_input_check :
    treeD.strings_count = 1 ∧
    treeD.input_string = "a$b$0".toList ∧
    treeD.leaves.length = 5 ∧
    get_string_lengths treeD.input_string = [1, 1, 0] := by
  decide

/-- C3 (counterexample): after appending the single non-empty string
"xabxac" the tree has 8 leaves (6 symbols plus the two-symbol terminator
"$0"), not length + 1 = 7 as the claim states. -/
theorem C3_leaf_count_counterexample :
    treeA.leaves.length = 8 ∧ treeA.leaves.length ≠ "xabxac".toList.length + 1 := by
  decide

/-- C4: find_common_substrings is not idempotent.  On the completed
scenario B tree the first call returns the two-entry mapping
(abc and bc), while an immediate second call with the same argument
returns the empty mapping: the early-termination test of the propagation
walk stops every second-call walk at the first ancestor, so internal
candidates are never re-collected. -/
theorem C4_not_idempotent :
    resultB.length = 2 ∧ resultBSecond = [] ∧ resultB ≠ resultBSecond := by
  decide

/-- C6 (counterexample): on the scenario B tree the result of
find_common_substrings 2 contains the further key "bc" of length ≥ 2 (with
positions [[1],[4]]), so "abc" is not the only qualifying key: the
candidate set keeps every successful ancestor, not only maximal ones. -/
theorem C6_other_key_exists :
    resultB.lookup "bc".toList = some [[(1 : Int)], [4]] ∧
    2 ≤ "bc".toList.length := by
  decide

/-- C6 (amended): on the scenario B tree, find_common_substrings 2 returns
exactly two entries: "abc" at positions [[0],[3]] and its proper suffix
"bc" at positions [[1],[4]]. -/
theorem C6_exact_result :
    resultB.lookup "abc".toList = some [[(0 : Int)], [3]] ∧
    resultB.lookup "bc".toList = some [[(1 : Int)], [4]] ∧
    resultB.length = 2 := by
  decide

/-- C7 (counterexample): on the tree built from "xabxac" alone,
find_common_substrings 1 has no key "x" at all (candidates are tree nodes,
and the branching node spells "xa"), and the key "a" lists two
occurrences, not one. -/
theorem C7_expected_keys_missing :
    resultA1.lookup "x".toList = none ∧
    resultA1.lookup "a".toList = some [[(1 : Int), 4]] := by
  decide

/-- C7 (amended): the actual result on "xabxac" with min length 1 has
exactly 8 keys: the branching substrings "a" (offsets 1 and 4) and "xa"
(offsets 0 and 3) are correct, while the six leaf-derived keys
(the five suffixes of length ≥ 2 and "c") carry wrong offsets (2, 3, 4,
5, 6 and 7 instead of 0, 1, 2, 3, 4 and [2, 5]). -/
theorem C7_actual_result :
    resultA1.length = 8 ∧
    resultA1.lookup "a".toList = some [[(1 : Int), 4]] ∧
    resultA1.lookup "xa".toList = some [[(0 : Int), 3]] ∧
    resultA1.lookup "xabxac".toList = some [[(2 : Int)]] ∧
    resultA1.lookup "abxac".toList = some [[(3 : Int)]] ∧
    resultA1.lookup "bxac".toList = some [[(4 : Int)]] ∧
    resultA1.lookup "xac".toList = some [[(5 : Int)]] ∧
    resultA1.lookup "ac".toList = some [[(6 : Int)]] ∧
    resultA1.lookup "c".toList = some [[(7 : Int)]] := by
  decide

/-- C8 (counterexample): appending "a" without a class id places string 0
in the synthetic class "$0"; a later append_string "b" with the explicit
class id "$0" joins that same class, so the unclassed string's class is
[0, 1], not a singleton. -/
theorem C8_synthetic_class_collision :
    treeCollide.classes = [("$0", [0, 1])] := by
  decide

/-- C10: find_common_substrings is not structurally mutating.  For every
tree state and every min length, the call leaves input_string,
strings_count, the leaves list and the classes mapping unchanged, and
every node keeps its start, end, edges, parent and suffix_link; only
bit_vector fields may change (eqButBv). -/
theorem C10_find_only_mutates_bit_vectors (t : SuffixTree) (m : Nat) :
    (find_common_substrings t m).2.input_string = t.input_string ∧
    (find_common_substrings t m).2.strings_count = t.strings_count ∧
    (find_common_substrings t m).2.leaves = t.leaves ∧
    (find_common_substrings t m).2.classes = t.classes ∧
    eqButBv (find_common_substrings t m).2.nodes t.nodes := by
  rw [find_common_substrings_snd]
  exact ⟨rfl, rfl, rfl, rfl, foldl_walkUp_eqButBv _ _ _ _⟩

/-! ### Operation lemmas for the construction -/

theorem add_child_snd (nodes : List STNode) (p : Nat) (k : Char) (s e : Nat) :
    (add_child nodes p k s e).2 = nodes.length := rfl

theorem add_child_length (nodes : List STNode) (p : Nat) (k : Char) (s e : Nat) :
    (add_child nodes p k s e).1.length = nodes.length + 1 := by
  simp [add_child, length_modifyN]

/-- Full decomposition of a modifyN read. -/
theorem getN_modifyN (nodes : List STNode) (i : Nat) (f : STNode → STNode)
    (j : Nat) :
    getN (modifyN nodes i f) j =
      if i = j ∧ j < nodes.length then f (getN nodes j) else getN nodes j := by
  by_cases hij : i = j
  · subst hij
    by_cases h : i < nodes.length
    · rw [getN_modifyN_self _ _ _ h, if_pos ⟨rfl, h⟩]
    · rw [modifyN, setN_oob _ _ _ (le_of_not_lt h), if_neg (fun hc => h hc.2)]
  · rw [getN_modifyN_ne _ _ _ _ hij, if_neg (fun hc => hij hc.1)]

theorem getN_append_one (nodes : List STNode) (n : STNode) (j : Nat) :
    getN (nodes ++ [n]) j =
      if j = nodes.length then n else getN nodes j := by
  by_cases hj : j = nodes.length
  · subst hj; rw [getN_append_self, if_pos rfl]
  · rcases Nat.lt_or_ge j nodes.length with h | h
    · rw [getN_append_lt _ _ _ h, if_neg hj]
    · have h' : nodes.length < j := lt_of_le_of_ne h (fun a => hj a.symm)
      rw [getN_oob _ _ (by simp; omega), getN_oob _ _ (le_of_lt h'), if_neg hj]

theorem add_child_bv (nodes : List STNode) (p : Nat) (k : Char) (s e : Nat)
    (j : Nat) :
    (getN (add_child nodes p k s e).1 j).bit_vector =
      if j = nodes.length then 0 else (getN nodes j).bit_vector := by
  simp only [add_child, getN_modifyN, getN_append_one]
  split
  · split
    · simp
    · rfl
  · split
    · simp
    · rfl

theorem add_existing_bv (nodes : List STNode) (p : Nat) (k : Char) (c j : Nat) :
    (getN (add_existing_as_child nodes p k c) j).bit_vector =
      (getN nodes j).bit_vector := by
  simp only [add_existing_as_child, getN_modifyN]
  split
  · split <;> rfl
  · split <;> rfl

theorem add_existing_length (nodes : List STNode) (p : Nat) (k : Char) (c : Nat) :
    (add_existing_as_child nodes p k c).length = nodes.length := by
  simp [add_existing_as_child, length_modifyN]

theorem followLink_fields (index : Nat) (st : UkkState) :
    (followLink index st).nodes = st.nodes ∧
    (followLink index st).new_leaves = st.new_leaves ∧
    (followLink index st).remainder = st.remainder := by
  unfold followLink
  split <;> exact ⟨rfl, rfl, rfl⟩

/-- The loop-accounting identity of one insertion-loop iteration: the
number of recorded new leaves plus the remainder is unchanged (a leaf is
created exactly when the remainder is decremented). -/
theorem ukkStep_sum (input : List Char) (strIdx index : Nat) (prev : Option Nat)
    (st : UkkState) (h : 1 ≤ st.remainder) :
    (stepState (ukkStep input strIdx index prev st)).new_leaves.length +
      (stepState (ukkStep input strIdx index prev st)).remainder =
      st.new_leaves.length + st.remainder := by
  simp only [ukkStep]
  split <;> split <;> (try split) <;> (try split)
  all_goals simp only [stepState]
  all_goals
    try rw [(followLink_fields index _).2.1, (followLink_fields index _).2.2]
  all_goals
    simp only [makeLeaf, makeSplit, linkPrev, List.length_append,
      List.length_cons, List.length_nil]
  all_goals omega

/-- One-step unfolding of the inner loop. -/
theorem ukkInner_succ (input : List Char) (strIdx index fuel : Nat)
    (prev : Option Nat) (st : UkkState) :
    ukkInner input strIdx index (fuel + 1) prev st =
      if st.remainder = 0 then st
      else
        match ukkStep input strIdx index prev st with
        | .stop st' => st'
        | .next p st' => ukkInner input strIdx index fuel p st' := rfl

/-- The accounting identity over a whole inner-loop run, any fuel. -/
theorem ukkInner_sum (input : List Char) (strIdx index : Nat) :
    ∀ (fuel : Nat) (prev : Option Nat) (st : UkkState),
      (ukkInner input strIdx index fuel prev st).new_leaves.length +
        (ukkInner input strIdx index fuel prev st).remainder =
        st.new_leaves.length + st.remainder := by
  intro fuel
  induction fuel with
  | zero => intro prev st; rfl
  | succ fuel ih =>
      intro prev st
      rw [ukkInner_succ]
      by_cases h0 : st.remainder = 0
      · rw [if_pos h0]
      · rw [if_neg h0]
        have hsum := ukkStep_sum input strIdx index prev st (by omega)
        cases hstep : ukkStep input strIdx index prev st with
        | stop st' =>
            rw [hstep] at hsum
            simpa [stepState] using hsum
        | next p st' =>
            rw [hstep] at hsum
            simp only [stepState] at hsum
            simp only []
            rw [ih p st']
            exact hsum

/-- The accounting identity over the outer loop: each processed index
contributes one to leaves-plus-remainder. -/
theorem ukkOuter_sum (input : List Char) (strIdx fuel : Nat) :
    ∀ (idxs : List Nat) (st : UkkState),
      (ukkOuter input strIdx fuel idxs st).new_leaves.length +
        (ukkOuter input strIdx fuel idxs st).remainder =
        st.new_leaves.length + st.remainder + idxs.length := by
  intro idxs
  induction idxs with
  | nil => intro st; rfl
  | cons i rest ih =>
      intro st
      rw [ukkOuter, ih]
      have h := ukkInner_sum input strIdx i fuel none
        { st with remainder := st.remainder + 1 }
      simp only [List.length_cons]
      simp only [] at h
      omega

theorem appendedOf_length (i : Nat) (s : List Char) :
    (appendedOf i s).length = appendedLen i s := by
  simp only [appendedOf, appendedLen, List.length_append, List.length_cons]
  omega

theorem append_string_leaves (t : SuffixTree) (s : List Char)
    (c : Option String) :
    (append_string t s c).leaves = t.leaves ++ (appendUkk t s).new_leaves := rfl

theorem append_string_strings_count (t : SuffixTree) (s : List Char)
    (c : Option String) :
    (append_string t s c).strings_count = t.strings_count + 1 := rfl

theorem appendUkk_new_leaves_le (t : SuffixTree) (s : List Char) :
    (appendUkk t s).new_leaves.length ≤ appendedLen t.strings_count s := by
  have h := ukkOuter_sum (t.input_string ++ appendedOf t.strings_count s)
    t.strings_count (appendFuel (t.input_string ++ appendedOf t.strings_count s) t)
    (List.range' t.input_string.length (appendedOf t.strings_count s).length)
    { nodes := t.nodes, active_node := 0, active_edge := 0,
      active_length := 0, remainder := 0, new_leaves := [] }
  simp only [List.length_range', List.length_nil] at h
  rw [← appendedOf_length]
  show (ukkOuter (t.input_string ++ appendedOf t.strings_count s)
    t.strings_count (appendFuel (t.input_string ++ appendedOf t.strings_count s) t)
    (List.range' t.input_string.length (appendedOf t.strings_count s).length)
    { nodes := t.nodes, active_node := 0, active_edge := 0,
      active_length := 0, remainder := 0, new_leaves := [] }).new_leaves.length ≤
    (appendedOf t.strings_count s).length
  omega

theorem append_string_leaves_length_le (t : SuffixTree) (s : List Char)
    (c : Option String) :
    (append_string t s c).leaves.length ≤
      t.leaves.length + appendedLen t.strings_count s := by
  rw [append_string_leaves, List.length_append]
  exact Nat.add_le_add_left (appendUkk_new_leaves_le t s) _

theorem buildTree_go_leaves_le (inputs : List (List Char × Option String)) :
    ∀ t : SuffixTree,
      (inputs.foldl (fun t p => append_string t p.1 p.2) t).leaves.length ≤
        t.leaves.length + totalAppendedLenFrom t.strings_count inputs := by
  induction inputs with
  | nil => intro t; simp [totalAppendedLenFrom]
  | cons x xs ih =>
      intro t
      rw [List.foldl_cons, totalAppendedLenFrom]
      have h1 := append_string_leaves_length_le t x.1 x.2
      have h2 := ih (append_string t x.1 x.2)
      rw [append_string_strings_count] at h2
      omega

/-! ### Bit-vector invariants of the construction (C3) -/

theorem linkPrev_bv (nodes : List STNode) (previous : Option Nat)
    (target j : Nat) :
    (getN (linkPrev nodes previous target) j).bit_vector =
      (getN nodes j).bit_vector := by
  cases previous with
  | none => rfl
  | some p =>
      simp only [linkPrev, getN_modifyN]
      split <;> rfl

theorem linkPrev_length (nodes : List STNode) (previous : Option Nat)
    (target : Nat) :
    (linkPrev nodes previous target).length = nodes.length := by
  cases previous <;> simp [linkPrev, length_modifyN]

theorem makeLeaf_nodes_length (strIdx index : Nat) (prev : Option Nat)
    (st : UkkState) (c : Char) :
    (makeLeaf strIdx index prev st c).nodes.length = st.nodes.length + 1 := by
  simp [makeLeaf, linkPrev_length, length_modifyN, add_child_length]

theorem makeLeaf_new_leaves (strIdx index : Nat) (prev : Option Nat)
    (st : UkkState) (c : Char) :
    (makeLeaf strIdx index prev st c).new_leaves =
      st.new_leaves ++ [st.nodes.length] := rfl

theorem makeLeaf_bv (strIdx index : Nat) (prev : Option Nat) (st : UkkState)
    (c : Char) (j : Nat) :
    (getN (makeLeaf strIdx index prev st c).nodes j).bit_vector =
      if j = st.nodes.length then 2 ^ strIdx
      else (getN st.nodes j).bit_vector := by
  simp only [makeLeaf, linkPrev_bv, add_child_snd, getN_modifyN]
  by_cases hj : j = st.nodes.length
  · subst hj
    rw [if_pos ⟨rfl, by rw [add_child_length]; omega⟩, if_pos rfl]
  · rw [if_neg (fun hc => hj hc.1.symm), if_neg hj, add_child_bv,
      if_neg hj]

theorem makeSplit_nodes_length (input : List Char) (strIdx index : Nat)
    (prev : Option Nat) (st : UkkState) (c : Char) (nextId : Nat) :
    (makeSplit input strIdx index prev st c nextId).nodes.length =
      st.nodes.length + 2 := by
  simp [makeSplit, linkPrev_length, length_modifyN, add_child_length,
    add_existing_length]

theorem makeSplit_new_leaves (input : List Char) (strIdx index : Nat)
    (prev : Option Nat) (st : UkkState) (c : Char) (nextId : Nat) :
    (makeSplit input strIdx index prev st c nextId).new_leaves =
      st.new_leaves ++ [st.nodes.length + 1] := by
  simp [makeSplit, add_child_snd, add_existing_length, length_modifyN,
    add_child_length]

theorem makeSplit_bv (input : List Char) (strIdx index : Nat)
    (prev : Option Nat) (st : UkkState) (c : Char) (nextId : Nat) (j : Nat) :
    (getN (makeSplit input strIdx index prev st c nextId).nodes j).bit_vector =
      if j = st.nodes.length + 1 then 2 ^ strIdx
      else if j = st.nodes.length then 0
      else (getN st.nodes j).bit_vector := by
  have hstart : ∀ (nodes' : List STNode) (j : Nat),
      (getN (modifyN nodes' nextId
        (fun n => { n with start := n.start + st.active_length })) j).bit_vector =
        (getN nodes' j).bit_vector := by
    intro nodes' j
    rw [getN_modifyN]
    split <;> rfl
  simp only [makeSplit, linkPrev_bv, add_child_snd, getN_modifyN]
  rw [add_existing_length, length_modifyN, add_child_length]
  by_cases hj : j = st.nodes.length + 1
  · subst hj
    rw [if_pos ⟨rfl, by rw [add_child_length, add_existing_length,
        length_modifyN, add_child_length]; omega⟩, if_pos rfl]
  · rw [if_neg (fun hc => hj hc.1.symm), if_neg hj, add_child_bv,
      add_existing_length, length_modifyN, add_child_length, if_neg hj,
      add_existing_bv, hstart, add_child_bv]

theorem stepState_next (p : Option Nat) (st : UkkState) :
    stepState (.next p st) = st := rfl

theorem stepState_stop (st : UkkState) :
    stepState (.stop st) = st := rfl

theorem ukkStep_nodes_length_le (input : List Char) (strIdx index : Nat)
    (prev : Option Nat) (st : UkkState) :
    st.nodes.length ≤ (stepState (ukkStep input strIdx index prev st)).nodes.length := by
  simp only [ukkStep]
  split <;> split <;> (try split) <;> (try split)
  all_goals simp only [stepState]
  all_goals try rw [(followLink_fields index _).1]
  all_goals
    try simp only [makeLeaf_nodes_length, makeSplit_nodes_length, linkPrev_length]
  all_goals omega

theorem ukkStep_bv_pres (input : List Char) (strIdx index : Nat)
    (prev : Option Nat) (st : UkkState) (j : Nat) (hj : j < st.nodes.length) :
    (getN (stepState (ukkStep input strIdx index prev st)).nodes j).bit_vector =
      (getN st.nodes j).bit_vector := by
  simp only [ukkStep]
  split <;> split <;> (try split) <;> (try split)
  all_goals simp only [stepState]
  all_goals try rw [(followLink_fields index _).1]
  all_goals
    try simp only [makeLeaf_bv, makeSplit_bv, linkPrev_bv]
  all_goals try trivial
  all_goals
    first
    | (rw [if_neg (by omega), if_neg (by omega)])
    | (rw [if_neg (by omega)])
  all_goals trivial

theorem ukkStep_new_leaves (input : List Char) (strIdx index : Nat)
    (prev : Option Nat) (st : UkkState) :
    (stepState (ukkStep input strIdx index prev st)).new_leaves = st.new_leaves ∨
    ∃ newId,
      (stepState (ukkStep input strIdx index prev st)).new_leaves =
        st.new_leaves ++ [newId] ∧
      newId < (stepState (ukkStep input strIdx index prev st)).nodes.length ∧
      (getN (stepState (ukkStep input strIdx index prev st)).nodes newId).bit_vector =
        2 ^ strIdx := by
  simp only [ukkStep]
  split <;> split <;> (try split) <;> (try split)
  all_goals simp only [stepState]
  all_goals
    try rw [(followLink_fields index _).1, (followLink_fields index _).2.1]
  all_goals try (left; trivial)
  all_goals right
  all_goals
    try simp only [makeLeaf_new_leaves, makeLeaf_nodes_length, makeLeaf_bv,
      makeSplit_new_leaves, makeSplit_nodes_length, makeSplit_bv]
  all_goals exact ⟨_, rfl, by omega, by rw [if_pos rfl]⟩

theorem ukkStep_tagged (input : List Char) (strIdx index : Nat)
    (prev : Option Nat) (st : UkkState) (h : leavesTagged strIdx st) :
    leavesTagged strIdx (stepState (ukkStep input strIdx index prev st)) := by
  intro l hl
  rcases ukkStep_new_leaves input strIdx index prev st with heq | ⟨newId, heq, hlt, hbv⟩
  · rw [heq] at hl
    obtain ⟨h1, h2⟩ := h l hl
    refine ⟨lt_of_lt_of_le h1 (ukkStep_nodes_length_le input strIdx index prev st), ?_⟩
    rw [ukkStep_bv_pres input strIdx index prev st l h1, h2]
  · rw [heq] at hl
    rcases List.mem_append.mp hl with hmem | hmem
    · obtain ⟨h1, h2⟩ := h l hmem
      refine ⟨lt_of_lt_of_le h1 (ukkStep_nodes_length_le input strIdx index prev st), ?_⟩
      rw [ukkStep_bv_pres input strIdx index prev st l h1, h2]
    · have hln : l = newId := List.mem_singleton.mp hmem
      subst hln
      exact ⟨hlt, hbv⟩

theorem ukkInner_tagged (input : List Char) (strIdx index : Nat) :
    ∀ (fuel : Nat) (prev : Option Nat) (st : UkkState),
      leavesTagged strIdx st →
      leavesTagged strIdx (ukkInner input strIdx index fuel prev st) := by
  intro fuel
  induction fuel with
  | zero => intro prev st h; exact h
  | succ fuel ih =>
      intro prev st h
      rw [ukkInner_succ]
      by_cases h0 : st.remainder = 0
      · rw [if_pos h0]; exact h
      · rw [if_neg h0]
        have hstep := ukkStep_tagged input strIdx index prev st h
        cases hs : ukkStep input strIdx index prev st with
        | stop st' => rw [hs] at hstep; exact hstep
        | next p st' => rw [hs] at hstep; exact ih p st' hstep

theorem ukkInner_length_le (input : List Char) (strIdx index : Nat) :
    ∀ (fuel : Nat) (prev : Option Nat) (st : UkkState),
      st.nodes.length ≤ (ukkInner input strIdx index fuel prev st).nodes.length := by
  intro fuel
  induction fuel with
  | zero => intro prev st; exact le_refl _
  | succ fuel ih =>
      intro prev st
      rw [ukkInner_succ]
      by_cases h0 : st.remainder = 0
      · rw [if_pos h0]
      · rw [if_neg h0]
        have hstep := ukkStep_nodes_length_le input strIdx index prev st
        cases hs : ukkStep input strIdx index prev st with
        | stop st' => rw [hs] at hstep; exact hstep
        | next p st' =>
            rw [hs] at hstep
            exact le_trans hstep (ih p st')

theorem ukkInner_bv_pres (input : List Char) (strIdx index : Nat) :
    ∀ (fuel : Nat) (prev : Option Nat) (st : UkkState) (j : Nat),
      j < st.nodes.length →
      (getN (ukkInner input strIdx index fuel prev st).nodes j).bit_vector =
        (getN st.nodes j).bit_vector := by
  intro fuel
  induction fuel with
  | zero => intro prev st j _; rfl
  | succ fuel ih =>
      intro prev st j hj
      rw [ukkInner_succ]
      by_cases h0 : st.remainder = 0
      · rw [if_pos h0]
      · rw [if_neg h0]
        have hstep := ukkStep_bv_pres input strIdx index prev st j hj
        have hlen := ukkStep_nodes_length_le input strIdx index prev st
        cases hs : ukkStep input strIdx index prev st with
        | stop st' => rw [hs] at hstep; exact hstep
        | next p st' =>
            rw [hs] at hstep hlen
            simp only [stepState] at hstep hlen
            rw [ih p st' j (lt_of_lt_of_le hj hlen)]
            exact hstep

theorem ukkOuter_tagged (input : List Char) (strIdx fuel : Nat) :
    ∀ (idxs : List Nat) (st : UkkState),
      leavesTagged strIdx st →
      leavesTagged strIdx (ukkOuter input strIdx fuel idxs st) := by
  intro idxs
  induction idxs with
  | nil => intro st h; exact h
  | cons i rest ih =>
      intro st h
      rw [ukkOuter]
      exact ih _ (ukkInner_tagged input strIdx i fuel none _ h)

theorem ukkOuter_length_le (input : List Char) (strIdx fuel : Nat) :
    ∀ (idxs : List Nat) (st : UkkState),
      st.nodes.length ≤ (ukkOuter input strIdx fuel idxs st).nodes.length := by
  intro idxs
  induction idxs with
  | nil => intro st; exact le_refl _
  | cons i rest ih =>
      intro st
      rw [ukkOuter]
      exact le_trans
        (ukkInner_length_le input strIdx i fuel none
          { st with remainder := st.remainder + 1 })
        (ih _)

theorem ukkOuter_bv_pres (input : List Char) (strIdx fuel : Nat) :
    ∀ (idxs : List Nat) (st : UkkState) (j : Nat),
      j < st.nodes.length →
      (getN (ukkOuter input strIdx fuel idxs st).nodes j).bit_vector =
        (getN st.nodes j).bit_vector := by
  intro idxs
  induction idxs with
  | nil => intro st j _; rfl
  | cons i rest ih =>
      intro st j hj
      rw [ukkOuter]
      rw [ih _ j (lt_of_lt_of_le hj
        (ukkInner_length_le input strIdx i fuel none
          { st with remainder := st.remainder + 1 }))]
      exact ukkInner_bv_pres input strIdx i fuel none _ j hj

theorem finalize_length (e : Nat) (ls : List Nat) :
    ∀ ns : List STNode,
      (ls.foldl (fun ns l => modifyN ns l (fun n => { n with endIdx := e })) ns).length =
        ns.length := by
  induction ls with
  | nil => intro ns; rfl
  | cons l ls ih =>
      intro ns
      rw [List.foldl_cons, ih, length_modifyN]

theorem finalize_bv (e : Nat) (ls : List Nat) :
    ∀ (ns : List STNode) (j : Nat),
      (getN (ls.foldl (fun ns l => modifyN ns l (fun n => { n with endIdx := e })) ns) j).bit_vector =
        (getN ns j).bit_vector := by
  induction ls with
  | nil => intro ns j; rfl
  | cons l ls ih =>
      intro ns j
      rw [List.foldl_cons, ih]
      rw [getN_modifyN]
      split <;> rfl

theorem append_string_nodes (t : SuffixTree) (s : List Char) (c : Option String) :
    (append_string t s c).nodes =
      (appendUkk t s).new_leaves.foldl
        (fun ns l => modifyN ns l
          (fun n => { n with
            endIdx := (t.input_string ++ appendedOf t.strings_count s).length }))
        (appendUkk t s).nodes := rfl

theorem appendUkk_tagged (t : SuffixTree) (s : List Char) :
    leavesTagged t.strings_count (appendUkk t s) :=
  ukkOuter_tagged _ _ _ _ _ (fun l hl => absurd hl (List.not_mem_nil l))

theorem appendUkk_length_le (t : SuffixTree) (s : List Char) :
    t.nodes.length ≤ (appendUkk t s).nodes.length :=
  ukkOuter_length_le _ _ _ _
    { nodes := t.nodes, active_node := 0, active_edge := 0,
      active_length := 0, remainder := 0, new_leaves := [] }

theorem appendUkk_bv_pres (t : SuffixTree) (s : List Char) (j : Nat)
    (hj : j < t.nodes.length) :
    (getN (appendUkk t s).nodes j).bit_vector = (getN t.nodes j).bit_vector :=
  ukkOuter_bv_pres _ _ _ _
    { nodes := t.nodes, active_node := 0, active_edge := 0,
      active_length := 0, remainder := 0, new_leaves := [] } j hj

theorem append_string_treeLeavesOk (t : SuffixTree) (s : List Char)
    (c : Option String) (h : treeLeavesOk t) :
    treeLeavesOk (append_string t s c) := by
  intro l hl
  rw [append_string_leaves] at hl
  have hlen : (append_string t s c).nodes.length = (appendUkk t s).nodes.length := by
    rw [append_string_nodes]; exact finalize_length _ _ _
  rcases List.mem_append.mp hl with hm | hm
  · obtain ⟨h1, i, hi, hbv⟩ := h l hm
    refine ⟨?_, i, ?_, ?_⟩
    · rw [hlen]; exact lt_of_lt_of_le h1 (appendUkk_length_le t s)
    · rw [append_string_strings_count]; omega
    · rw [append_string_nodes, finalize_bv, appendUkk_bv_pres t s l h1, hbv]
  · obtain ⟨h1, hbv⟩ := appendUkk_tagged t s l hm
    refine ⟨?_, t.strings_count, ?_, ?_⟩
    · rw [hlen]; exact h1
    · rw [append_string_strings_count]; omega
    · rw [append_string_nodes, finalize_bv, hbv]

theorem buildTree_go_leavesOk (inputs : List (List Char × Option String)) :
    ∀ t : SuffixTree, treeLeavesOk t →
      treeLeavesOk (inputs.foldl (fun t p => append_string t p.1 p.2) t) := by
  induction inputs with
  | nil => intro t h; exact h
  | cons x xs ih =>
      intro t h
      rw [List.foldl_cons]
      exact ih _ (append_string_treeLeavesOk t x.1 x.2 h)

theorem buildTree_leavesOk (inputs : List (List Char × Option String)) :
    treeLeavesOk (buildTree inputs) :=
  buildTree_go_leavesOk inputs SuffixTree.empty
    (fun l hl => absurd hl (List.not_mem_nil l))

theorem buildTree_go_strings_count (inputs : List (List Char × Option String)) :
    ∀ t : SuffixTree,
      (inputs.foldl (fun t p => append_string t p.1 p.2) t).strings_count =
        t.strings_count + inputs.length := by
  induction inputs with
  | nil =>
      intro t
      rfl
  | cons x xs ih =>
      intro t
      rw [List.foldl_cons, ih, append_string_strings_count, List.length_cons]
      omega

theorem buildTree_strings_count (inputs : List (List Char × Option String)) :
    (buildTree inputs).strings_count = inputs.length := by
  rw [buildTree, buildTree_go_strings_count]
  show 0 + inputs.length = inputs.length
  omega

/-- Appending one more string extends the built tree by one append. -/
theorem buildTree_take_succ (inputs : List (List Char × Option String))
    (i : Nat) (h : i < inputs.length) :
    buildTree (inputs.take (i + 1)) =
      append_string (buildTree (inputs.take i)) inputs[i].1 inputs[i].2 := by
  have hts : inputs.take (i + 1) = inputs.take i ++ [inputs[i]] := by
    rw [List.take_succ, List.getElem?_eq_getElem h]
    rfl
  rw [hts, buildTree, List.foldl_append]
  rfl

/-- A leaf first recorded by append number `i` is tagged with exactly the
bit of string `i` in the tree state right after that append. -/
theorem created_leaf_tagged (inputs : List (List Char × Option String))
    (i : Nat) (h : i < inputs.length) :
    ∀ l, l ∈ (buildTree (inputs.take (i + 1))).leaves →
      l ∉ (buildTree (inputs.take i)).leaves →
      l < (buildTree (inputs.take (i + 1))).nodes.length ∧
      (getN (buildTree (inputs.take (i + 1))).nodes l).bit_vector = 2 ^ i := by
  intro l hin hout
  rw [buildTree_take_succ inputs i h] at hin ⊢
  rw [append_string_leaves] at hin
  have hnew : l ∈ (appendUkk (buildTree (inputs.take i))
      inputs[i].1).new_leaves := by
    rcases List.mem_append.mp hin with hm | hm
    · exact absurd hm hout
    · exact hm
  obtain ⟨hlt, hbv⟩ :=
    appendUkk_tagged (buildTree (inputs.take i)) inputs[i].1 l hnew
  have hsc : (buildTree (inputs.take i)).strings_count = i := by
    rw [buildTree_strings_count, List.length_take]
    exact Nat.min_eq_left (Nat.le_of_lt h)
  have hlen2 : (append_string (buildTree (inputs.take i)) inputs[i].1
      inputs[i].2).nodes.length =
      (appendUkk (buildTree (inputs.take i)) inputs[i].1).nodes.length := by
    rw [append_string_nodes]
    exact finalize_length _ _ _
  constructor
  · rw [hlen2]
    exact hlt
  · rw [append_string_nodes, finalize_bv, hbv, hsc]

theorem append_string_bv_pres (t : SuffixTree) (s : List Char)
    (c : Option String) (j : Nat) (hj : j < t.nodes.length) :
    (getN (append_string t s c).nodes j).bit_vector =
      (getN t.nodes j).bit_vector := by
  rw [append_string_nodes, finalize_bv, appendUkk_bv_pres t s j hj]

theorem append_string_length_le (t : SuffixTree) (s : List Char)
    (c : Option String) :
    t.nodes.length ≤ (append_string t s c).nodes.length := by
  rw [append_string_nodes, finalize_length]
  exact appendUkk_length_le t s

/-- Later appends never touch the bit vector of an already allocated
node. -/
theorem buildTree_go_bv_pres (inputs : List (List Char × Option String)) :
    ∀ (t : SuffixTree) (j : Nat), j < t.nodes.length →
      t.nodes.length ≤
        (inputs.foldl (fun t p => append_string t p.1 p.2) t).nodes.length ∧
      (getN (inputs.foldl (fun t p => append_string t p.1 p.2) t).nodes
        j).bit_vector = (getN t.nodes j).bit_vector := by
  induction inputs with
  | nil =>
      intro t j hj
      exact ⟨le_refl _, rfl⟩
  | cons x xs ih =>
      intro t j hj
      rw [List.foldl_cons]
      have hj' : j < (append_string t x.1 x.2).nodes.length :=
        lt_of_lt_of_le hj (append_string_length_le t x.1 x.2)
      obtain ⟨hle, hbv⟩ := ih (append_string t x.1 x.2) j hj'
      exact ⟨le_trans (append_string_length_le t x.1 x.2) hle,
        hbv.trans (append_string_bv_pres t x.1 x.2 j hj)⟩

/-- Every recorded leaf of a built tree was first recorded by a unique
append step: it is present after append i+1 and absent before. -/
theorem leaf_created_at (inputs : List (List Char × Option String)) :
    ∀ l ∈ (buildTree inputs).leaves,
      ∃ i, i < inputs.length ∧
        l ∈ (buildTree (inputs.take (i + 1))).leaves ∧
        l ∉ (buildTree (inputs.take i)).leaves := by
  have haux : ∀ n, n ≤ inputs.length →
      ∀ l ∈ (buildTree (inputs.take n)).leaves,
        ∃ i, i < n ∧
          l ∈ (buildTree (inputs.take (i + 1))).leaves ∧
          l ∉ (buildTree (inputs.take i)).leaves := by
    intro n
    induction n with
    | zero =>
        intro _ l hl
        rw [List.take_zero] at hl
        exact absurd hl (List.not_mem_nil l)
    | succ n ih =>
        intro hn l hl
        by_cases hmem : l ∈ (buildTree (inputs.take n)).leaves
        · obtain ⟨i, hi, h1, h2⟩ := ih (by omega) l hmem
          exact ⟨i, by omega, h1, h2⟩
        · exact ⟨n, by omega, hl, hmem⟩
  intro l hl
  obtain ⟨i, hi, h1, h2⟩ := haux inputs.length (le_refl _) l
    (by rw [List.take_length]; exact hl)
  exact ⟨i, hi, h1, h2⟩

/-- C3 (amended): after appending any sequence of strings, the tree's
leaf list has at most as many elements as the number of symbols appended
(each string's length plus its terminator's length, one delimiter plus
the decimal digits of the string's index - the claimed "+ 1" is wrong
because the terminator is more than one symbol), and every leaf's bit
vector is a single set bit 2^i where i is precisely the index of the
string whose append created the leaf: the leaf is first recorded by
append number i (present after append i+1, absent before), and its bit
vector in the final tree is 2^i. -/
theorem C3_leaf_census (inputs : List (List Char × Option String)) :
    (buildTree inputs).leaves.length ≤ totalAppendedLen inputs ∧
    ∀ l ∈ (buildTree inputs).leaves,
      ∃ i, i < inputs.length ∧
        l ∈ (buildTree (inputs.take (i + 1))).leaves ∧
        l ∉ (buildTree (inputs.take i)).leaves ∧
        (getN (buildTree inputs).nodes l).bit_vector = 2 ^ i := by
  constructor
  · have h := buildTree_go_leaves_le inputs SuffixTree.empty
    simpa [buildTree, totalAppendedLen, SuffixTree.empty] using h
  · intro l hl
    obtain ⟨i, hi, hin, hout⟩ := leaf_created_at inputs l hl
    obtain ⟨hlt, hbv⟩ := created_leaf_tagged inputs i hi l hin hout
    refine ⟨i, hi, hin, hout, ?_⟩
    have hdec : buildTree inputs =
        (inputs.drop (i + 1)).foldl (fun t p => append_string t p.1 p.2)
          (buildTree (inputs.take (i + 1))) := by
      rw [buildTree, buildTree, ← List.foldl_append, List.take_append_drop]
    rw [hdec,
      (buildTree_go_bv_pres (inputs.drop (i + 1)) _ l hlt).2, hbv]

/-! ### Injectivity of the decimal terminator (for C8) -/

theorem digitChar_val (m : Nat) (h : m < 10) :
    (Nat.digitChar m).toNat - 48 = m := by
  interval_cases m <;> decide

theorem toDigitsCore_append (f : Nat) :
    ∀ (n : Nat) (ds : List Char),
      Nat.toDigitsCore 10 f n ds = Nat.toDigitsCore 10 f n [] ++ ds := by
  induction f with
  | zero => intro n ds; rfl
  | succ f ih =>
      intro n ds
      simp only [Nat.toDigitsCore]
      by_cases h : n / 10 = 0
      · rw [if_pos h, if_pos h]; rfl
      · rw [if_neg h, if_neg h, ih (n / 10) (Nat.digitChar (n % 10) :: ds),
          ih (n / 10) [Nat.digitChar (n % 10)], List.append_assoc]
        rfl

theorem toDigitsCore_fuel :
    ∀ (n f : Nat) (ds : List Char), n < f →
      Nat.toDigitsCore 10 f n ds = Nat.toDigitsCore 10 (n + 1) n ds := by
  intro n
  induction n using Nat.strong_induction_on with
  | _ n ih =>
      intro f ds hf
      obtain ⟨f', rfl⟩ : ∃ f', f = f' + 1 := ⟨f - 1, by omega⟩
      simp only [Nat.toDigitsCore]
      by_cases h : n / 10 = 0
      · rw [if_pos h, if_pos h]
      · have hn : 0 < n := by
          rcases Nat.eq_zero_or_pos n with rfl | hp
          · simp at h
          · exact hp
        have hdiv : n / 10 < n := Nat.div_lt_self hn (by norm_num)
        rw [if_neg h, if_neg h, ih (n / 10) hdiv f' _ (by omega),
          ih (n / 10) hdiv n _ (by omega)]

theorem ofDecDigits_append (a : Nat) (xs : List Char) (d : Char) :
    ofDecDigits a (xs ++ [d]) = 10 * ofDecDigits a xs + (d.toNat - 48) := by
  simp [ofDecDigits, List.foldl_append]

theorem ofDecDigits_toDigits :
    ∀ n : Nat, ofDecDigits 0 (Nat.toDigits 10 n) = n := by
  intro n
  induction n using Nat.strong_induction_on with
  | _ n ih =>
      show ofDecDigits 0 (Nat.toDigitsCore 10 (n + 1) n []) = n
      simp only [Nat.toDigitsCore]
      by_cases h : n / 10 = 0
      · rw [if_pos h]
        show 10 * 0 + ((Nat.digitChar (n % 10)).toNat - 48) = n
        rw [digitChar_val _ (Nat.mod_lt _ (by norm_num))]
        omega
      · have hn : 0 < n := by
          rcases Nat.eq_zero_or_pos n with rfl | hp
          · simp at h
          · exact hp
        have hdiv : n / 10 < n := Nat.div_lt_self hn (by norm_num)
        rw [if_neg h, toDigitsCore_fuel (n / 10) n _ hdiv, toDigitsCore_append,
          ofDecDigits_append]
        have ihd := ih (n / 10) hdiv
        show 10 * ofDecDigits 0 (Nat.toDigits 10 (n / 10)) +
          ((Nat.digitChar (n % 10)).toNat - 48) = n
        rw [ihd, digitChar_val _ (Nat.mod_lt _ (by norm_num))]
        omega

theorem toDigits_inj (a b : Nat) (h : Nat.toDigits 10 a = Nat.toDigits 10 b) :
    a = b := by
  have ha := ofDecDigits_toDigits a
  rw [h, ofDecDigits_toDigits] at ha
  exact ha.symm

theorem nat_repr_inj (a b : Nat) (h : Nat.repr a = Nat.repr b) : a = b := by
  apply toDigits_inj
  have hd := congrArg String.data h
  simpa [Nat.repr, List.asString] using hd

theorem dollarKey_inj (a b : Nat)
    (h : "$" ++ Nat.repr a = "$" ++ Nat.repr b) : a = b := by
  apply nat_repr_inj
  have hd : '$' :: (Nat.repr a).data = '$' :: (Nat.repr b).data :=
    congrArg String.data h
  have hd2 : (Nat.repr a).data = (Nat.repr b).data := by injection hd
  exact congrArg String.mk hd2

/-! ### The classes mapping (C8) -/

theorem append_string_classes (t : SuffixTree) (s : List Char)
    (c : Option String) :
    (append_string t s c).classes =
      classesAdd t.classes (classKeyOf t.strings_count c) t.strings_count := rfl

theorem buildTree_go_classes (inputs : List (List Char × Option String)) :
    ∀ t : SuffixTree,
      (inputs.foldl (fun t p => append_string t p.1 p.2) t).classes =
        classesFoldFrom t.strings_count t.classes inputs := by
  induction inputs with
  | nil => intro t; rfl
  | cons x xs ih =>
      intro t
      rw [List.foldl_cons, ih, classesFoldFrom, append_string_classes,
        append_string_strings_count]

theorem buildTree_classes (inputs : List (List Char × Option String)) :
    (buildTree inputs).classes = classesFoldFrom 0 [] inputs :=
  buildTree_go_classes inputs SuffixTree.empty

theorem lookup_classesAdd_ne (cs : List (String × List Nat)) (k : String)
    (i : Nat) (K : String) (h : K ≠ k) :
    (classesAdd cs k i).lookup K = cs.lookup K := by
  have hbeq : (K == k) = false := beq_eq_false_iff_ne.mpr h
  induction cs with
  | nil => simp [classesAdd, List.lookup, hbeq]
  | cons e t ih =>
      obtain ⟨k', l⟩ := e
      by_cases hk : k' = k
      · subst hk
        simp [classesAdd, List.lookup, hbeq]
      · simp only [classesAdd, if_neg hk, List.lookup]
        cases hKk : K == k'
        · exact ih
        · rfl

theorem lookup_classesAdd_self_none (cs : List (String × List Nat))
    (k : String) (i : Nat) (h : cs.lookup k = none) :
    (classesAdd cs k i).lookup k = some [i] := by
  induction cs with
  | nil => simp [classesAdd, List.lookup]
  | cons e t ih =>
      obtain ⟨k', l⟩ := e
      simp only [List.lookup] at h
      by_cases hk : k' = k
      · subst hk
        simp at h
      · have hbeq : (k == k') = false := beq_eq_false_iff_ne.mpr (Ne.symm hk)
        simp only [hbeq] at h
        simp only [classesAdd, if_neg hk, List.lookup, hbeq]
        exact ih h

theorem lookup_classesFoldFrom_ne (K : String) :
    ∀ (xs : List (List Char × Option String)) (m : Nat)
      (cs : List (String × List Nat)),
      (∀ j, j < xs.length → classKeyOf (m + j) (xs.getD j ([], none)).2 ≠ K) →
      (classesFoldFrom m cs xs).lookup K = cs.lookup K := by
  intro xs
  induction xs with
  | nil => intro m cs _; rfl
  | cons x t ih =>
      intro m cs hH
      rw [classesFoldFrom]
      rw [ih (m + 1) _ ?_, lookup_classesAdd_ne]
      · have h0 := hH 0 (by simp)
        simpa using fun a => h0 a.symm
      · intro j hj
        have := hH (j + 1) (by simpa using hj)
        simpa [Nat.add_assoc, Nat.add_comm 1 j] using this

theorem classesFoldFrom_singleton :
    ∀ (xs : List (List Char × Option String)) (m : Nat)
      (cs : List (String × List Nat)) (k : Nat),
      k < xs.length →
      (xs.getD k ([], none)).2 = none →
      (∀ j, j < xs.length → j ≠ k →
        (xs.getD j ([], none)).2 ≠ some ("$" ++ Nat.repr (m + k))) →
      cs.lookup ("$" ++ Nat.repr (m + k)) = none →
      (classesFoldFrom m cs xs).lookup ("$" ++ Nat.repr (m + k)) =
        some [m + k] := by
  intro xs
  induction xs with
  | nil => intro m cs k hk; exact absurd hk (by simp)
  | cons x t ih =>
      intro m cs k hk hnone hH hcs
      match k with
      | 0 =>
          simp only [Nat.add_zero] at hcs ⊢
          have hx : x.2 = none := hnone
          rw [classesFoldFrom]
          rw [lookup_classesFoldFrom_ne ("$" ++ Nat.repr m) t (m + 1) _ ?_]
          · have : classKeyOf m x.2 = "$" ++ Nat.repr m := by
              rw [hx]; rfl
            rw [this]
            exact lookup_classesAdd_self_none cs _ m hcs
          · intro j hj
            cases hcase : (t.getD j ([], none)).2 with
            | none =>
                simp only [classKeyOf, hcase, Option.getD_none]
                intro hcon
                have := dollarKey_inj _ _ hcon
                omega
            | some s =>
                simp only [classKeyOf, hcase, Option.getD_some]
                have := hH (j + 1) (by simpa using hj) (by omega)
                simp only [List.getD_cons_succ, hcase, Nat.add_zero] at this
                intro hcon
                exact this (by rw [hcon])
      | k' + 1 =>
          rw [classesFoldFrom]
          have hne : classKeyOf m x.2 ≠ "$" ++ Nat.repr (m + (k' + 1)) := by
            cases hcase : x.2 with
            | none =>
                simp only [classKeyOf, hcase, Option.getD_none]
                intro hcon
                have := dollarKey_inj _ _ hcon
                omega
            | some s =>
                simp only [classKeyOf, hcase, Option.getD_some]
                have := hH 0 (by simp) (by omega)
                simp only [List.getD_cons_zero, hcase] at this
                intro hcon
                exact this (by rw [hcon])
          have hshift : m + (k' + 1) = (m + 1) + k' := by omega
          rw [hshift] at hcs hne ⊢
          exact ih (m + 1) _ k' (by simpa using hk) hnone
            (fun j hj hjk => by
              have := hH (j + 1) (by simpa using hj) (by omega)
              simpa [hshift] using this)
            (by rw [lookup_classesAdd_ne _ _ _ _ (Ne.symm hne)]
                exact hcs)

/-- C8 (amended): every unclassed string k is registered under the
synthetic class key '$' + str(k), and that class is exactly the singleton
[k], provided no append supplies that very string as an explicit class
id.  (Without the proviso the synthetic class can gain members, see the
counterexample.) -/
theorem C8_unclassed_singleton (inputs : List (List Char × Option String))
    (k : Nat) (hk : k < inputs.length)
    (hnone : (inputs.getD k ([], none)).2 = none)
    (H : ∀ j, j < inputs.length → j ≠ k →
      (inputs.getD j ([], none)).2 ≠ some ("$" ++ Nat.repr k)) :
    (buildTree inputs).classes.lookup ("$" ++ Nat.repr k) = some [k] := by
  have h := classesFoldFrom_singleton inputs 0 [] k hk hnone
    (by simpa using H) rfl
  rw [buildTree_classes]
  simpa using h

/-- C8 witness: on append("a") unclassed followed by append("b", class
"B"), the unclassed string 0 is registered in the singleton class
"$0" = [0]. -/
theorem C8_unclassed_singleton_witness :
    (buildTree [("a".toList, none), ("b".toList, some "B")]).classes.lookup
      ("$" ++ Nat.repr 0) = some [0] :=
  C8_unclassed_singleton [("a".toList, none), ("b".toList, some "B")] 0
    (by decide) (by decide) (by decide)

/-- C3 witness: the amended census instantiated on the scenario A tree:
8 leaves against 6 + 1 + 1 appended symbols, and the first recorded leaf
is created by append number i carrying exactly the bit 2^i. -/
theorem C3_leaf_census_witness :
    treeA.leaves.length ≤ totalAppendedLen [("xabxac".toList, none)] ∧
    ∃ i, i < ([("xabxac".toList, none)] :
        List (List Char × Option String)).length ∧
      treeA.leaves.getD 0 0 ∈
        (buildTree (([("xabxac".toList, none)] :
          List (List Char × Option String)).take (i + 1))).leaves ∧
      treeA.leaves.getD 0 0 ∉
        (buildTree (([("xabxac".toList, none)] :
          List (List Char × Option String)).take i)).leaves ∧
      (getN treeA.nodes (treeA.leaves.getD 0 0)).bit_vector = 2 ^ i := by
  have h := C3_leaf_census [("xabxac".toList, none)]
  exact ⟨h.1, h.2 (treeA.leaves.getD 0 0) (by decide)⟩

/-! ### Parent-chain utilities (C9) -/

theorem parentStep_none (nodes : List STNode) : parentStep nodes none = none := rfl

theorem iterate_none (nodes : List STNode) (k : Nat) :
    (parentStep nodes)^[k] none = none := by
  induction k with
  | zero => rfl
  | succ k ih => rw [Function.iterate_succ_apply, parentStep_none, ih]

theorem iterate_none_mono (nodes : List STNode) (a b : Nat) (o : Option Nat)
    (h : (parentStep nodes)^[a] o = none) (hab : a ≤ b) :
    (parentStep nodes)^[b] o = none := by
  obtain ⟨d, rfl⟩ := Nat.le.dest hab
  rw [Nat.add_comm, Function.iterate_add_apply, h, iterate_none]

theorem iterate_shift (nodes : List STNode) (o : Option Nat) (i j : Nat)
    (h : (parentStep nodes)^[i] o = (parentStep nodes)^[j] o) (d : Nat) :
    (parentStep nodes)^[i + d] o = (parentStep nodes)^[j + d] o := by
  rw [Nat.add_comm i d, Nat.add_comm j d, Function.iterate_add_apply,
    Function.iterate_add_apply, h]

/-- A terminating parent chain has no duplicate nodes. -/
theorem iterate_no_dup (nodes : List STNode) (o : Option Nat) (K i j m : Nat)
    (hK : (parentStep nodes)^[K] o = none)
    (hi : (parentStep nodes)^[i] o = some m)
    (hj : (parentStep nodes)^[j] o = some m) (hij : i < j) : False := by
  have descend : ∀ b, j ≤ b → (parentStep nodes)^[b] o = none →
      (parentStep nodes)^[b - (j - i)] o = none := by
    intro b hb hnone
    have hshift := iterate_shift nodes o i j (hi.trans hj.symm) (b - j)
    have h1 : j + (b - j) = b := by omega
    have h2 : i + (b - j) = b - (j - i) := by omega
    rw [h1] at hshift
    rw [← h2, hshift]
    exact hnone
  have below : ∀ b, (parentStep nodes)^[b] o = none →
      ∃ b', b' < j ∧ (parentStep nodes)^[b'] o = none := by
    intro b
    induction b using Nat.strong_induction_on with
    | _ b ihb =>
        intro hnone
        by_cases hbj : b < j
        · exact ⟨b, hbj, hnone⟩
        · have hjb : j ≤ b := le_of_not_lt hbj
          exact ihb (b - (j - i)) (by omega) (descend b hjb hnone)
  obtain ⟨b', hb', hnone'⟩ := below K hK
  have hcon := iterate_none_mono nodes b' j o hnone' (le_of_lt hb')
  rw [hj] at hcon
  exact Option.noConfusion hcon

theorem chainF_mem_iff (nodes : List STNode) :
    ∀ (f : Nat) (o : Option Nat) (m : Nat),
      m ∈ chainF nodes f o ↔
        ∃ k, k < f ∧ (parentStep nodes)^[k] o = some m := by
  intro f
  induction f with
  | zero =>
      intro o m
      simp [chainF]
  | succ f ih =>
      intro o m
      match o with
      | none =>
          simp [chainF, iterate_none]
      | some id =>
          rw [chainF]
          simp only [List.mem_cons]
          constructor
          · rintro (rfl | hmem)
            · exact ⟨0, Nat.succ_pos f, rfl⟩
            · obtain ⟨k, hk, hit⟩ := (ih _ m).mp hmem
              exact ⟨k + 1, by omega,
                by rw [Function.iterate_succ_apply]; exact hit⟩
          · rintro ⟨k, hk, hit⟩
            match k with
            | 0 =>
                left
                exact (Option.some.inj hit).symm
            | k + 1 =>
                right
                refine (ih _ m).mpr ⟨k, by omega, ?_⟩
                rw [Function.iterate_succ_apply] at hit
                exact hit

theorem parentStep_eqButBv {a b : List STNode} (h : eqButBv a b)
    (o : Option Nat) : parentStep a o = parentStep b o := by
  match o with
  | none => rfl
  | some id =>
      show (getN a id).parent = (getN b id).parent
      exact (h.2 id).2.2.2.1

theorem iterate_parentStep_eqButBv {a b : List STNode} (h : eqButBv a b)
    (k : Nat) : ∀ o : Option Nat, (parentStep a)^[k] o = (parentStep b)^[k] o := by
  induction k with
  | zero => intro o; rfl
  | succ k ih =>
      intro o
      rw [Function.iterate_succ_apply, Function.iterate_succ_apply,
        parentStep_eqButBv h, ih]

theorem chainF_eqButBv {a b : List STNode} (h : eqButBv a b) :
    ∀ (f : Nat) (o : Option Nat), chainF a f o = chainF b f o := by
  intro f
  induction f with
  | zero => intro o; rfl
  | succ f ih =>
      intro o
      match o with
      | none => rfl
      | some id =>
          rw [chainF, chainF, ih, (h.2 id).2.2.2.1]

/-! ### Field decompositions of the construction operations (C9) -/

theorem add_child_parent (nodes : List STNode) (p : Nat) (k : Char) (s e : Nat)
    (j : Nat) :
    (getN (add_child nodes p k s e).1 j).parent =
      if j = nodes.length then some p else (getN nodes j).parent := by
  simp only [add_child, getN_modifyN, getN_append_one]
  split
  · split
    · simp
    · rfl
  · split
    · simp
    · rfl

theorem add_child_sl (nodes : List STNode) (p : Nat) (k : Char) (s e : Nat)
    (j : Nat) :
    (getN (add_child nodes p k s e).1 j).suffix_link =
      if j = nodes.length then none else (getN nodes j).suffix_link := by
  simp only [add_child, getN_modifyN, getN_append_one]
  split
  · split
    · simp
    · rfl
  · split
    · simp
    · rfl

theorem add_child_start (nodes : List STNode) (p : Nat) (k : Char) (s e : Nat)
    (j : Nat) :
    (getN (add_child nodes p k s e).1 j).start =
      if j = nodes.length then s else (getN nodes j).start := by
  simp only [add_child, getN_modifyN, getN_append_one]
  split
  · split
    · simp
    · rfl
  · split
    · simp
    · rfl

theorem add_child_edges (nodes : List STNode) (p : Nat) (k : Char) (s e : Nat)
    (hp : p < nodes.length) (j : Nat) :
    (getN (add_child nodes p k s e).1 j).edges =
      if j = p then edgesInsert (getN nodes p).edges k nodes.length
      else if j = nodes.length then []
      else (getN nodes j).edges := by
  have hplen : p ≠ nodes.length := by omega
  simp only [add_child, getN_modifyN, getN_append_one, List.length_append,
    List.length_cons, List.length_nil]
  by_cases hjp : j = p
  · subst hjp
    rw [if_pos ⟨rfl, by omega⟩, if_pos rfl, if_neg hplen]
  · rw [if_neg (fun hc => hjp hc.1.symm), if_neg hjp]
    by_cases hjl : j = nodes.length
    · rw [if_pos hjl, if_pos hjl]
    · rw [if_neg hjl, if_neg hjl]

theorem modifyN_bvset_parent (nodes : List STNode) (i b j : Nat) :
    (getN (modifyN nodes i (fun n => { n with bit_vector := b })) j).parent =
      (getN nodes j).parent := by
  rw [getN_modifyN]; split <;> rfl

theorem modifyN_bvset_edges (nodes : List STNode) (i b j : Nat) :
    (getN (modifyN nodes i (fun n => { n with bit_vector := b })) j).edges =
      (getN nodes j).edges := by
  rw [getN_modifyN]; split <;> rfl

theorem modifyN_bvset_sl (nodes : List STNode) (i b j : Nat) :
    (getN (modifyN nodes i (fun n => { n with bit_vector := b })) j).suffix_link =
      (getN nodes j).suffix_link := by
  rw [getN_modifyN]; split <;> rfl

theorem modifyN_startset_parent (nodes : List STNode) (i a j : Nat) :
    (getN (modifyN nodes i (fun n => { n with start := n.start + a })) j).parent =
      (getN nodes j).parent := by
  rw [getN_modifyN]; split <;> rfl

theorem modifyN_startset_edges (nodes : List STNode) (i a j : Nat) :
    (getN (modifyN nodes i (fun n => { n with start := n.start + a })) j).edges =
      (getN nodes j).edges := by
  rw [getN_modifyN]; split <;> rfl

theorem modifyN_startset_sl (nodes : List STNode) (i a j : Nat) :
    (getN (modifyN nodes i (fun n => { n with start := n.start + a })) j).suffix_link =
      (getN nodes j).suffix_link := by
  rw [getN_modifyN]; split <;> rfl

theorem modifyN_startset_bv (nodes : List STNode) (i a j : Nat) :
    (getN (modifyN nodes i (fun n => { n with start := n.start + a })) j).bit_vector =
      (getN nodes j).bit_vector := by
  rw [getN_modifyN]; split <;> rfl

theorem modifyN_startset_start (nodes : List STNode) (i a j : Nat)
    (hi : i < nodes.length) :
    (getN (modifyN nodes i (fun n => { n with start := n.start + a })) j).start =
      if j = i then (getN nodes j).start + a else (getN nodes j).start := by
  rw [getN_modifyN]
  by_cases hij : j = i
  · rw [if_pos ⟨hij.symm, by omega⟩, if_pos hij]
  · rw [if_neg (fun hc => hij hc.1.symm), if_neg hij]

theorem add_existing_parent (nodes : List STNode) (p : Nat) (k : Char) (c : Nat)
    (hc : c < nodes.length) (j : Nat) :
    (getN (add_existing_as_child nodes p k c) j).parent =
      if j = c then some p else (getN nodes j).parent := by
  simp only [add_existing_as_child, getN_modifyN, length_modifyN]
  split
  · by_cases hjc : j = c
    · rw [if_pos hjc]
      subst hjc
      rw [if_pos ⟨rfl, hc⟩]
    · rw [if_neg hjc, if_neg (fun hcon => hjc hcon.1.symm)]
  · by_cases hjc : j = c
    · rw [if_pos hjc]
      subst hjc
      rw [if_pos ⟨rfl, hc⟩]
    · rw [if_neg hjc, if_neg (fun hcon => hjc hcon.1.symm)]

theorem add_existing_edges (nodes : List STNode) (p : Nat) (k : Char) (c : Nat)
    (hp : p < nodes.length) (j : Nat) :
    (getN (add_existing_as_child nodes p k c) j).edges =
      if j = p then edgesInsert (getN nodes p).edges k c
      else (getN nodes j).edges := by
  simp only [add_existing_as_child, getN_modifyN, length_modifyN]
  by_cases hjp : j = p
  · subst hjp
    rw [if_pos ⟨rfl, hp⟩, if_pos rfl]
    split <;> rfl
  · rw [if_neg (fun hcon => hjp hcon.1.symm), if_neg hjp]
    split <;> rfl

theorem add_existing_sl (nodes : List STNode) (p : Nat) (k : Char) (c : Nat)
    (j : Nat) :
    (getN (add_existing_as_child nodes p k c) j).suffix_link =
      (getN nodes j).suffix_link := by
  simp only [add_existing_as_child, getN_modifyN]
  split
  · split <;> rfl
  · split <;> rfl

theorem linkPrev_parent (nodes : List STNode) (prev : Option Nat) (t j : Nat) :
    (getN (linkPrev nodes prev t) j).parent = (getN nodes j).parent := by
  cases prev with
  | none => rfl
  | some p =>
      simp only [linkPrev, getN_modifyN]
      split <;> rfl

theorem linkPrev_edges (nodes : List STNode) (prev : Option Nat) (t j : Nat) :
    (getN (linkPrev nodes prev t) j).edges = (getN nodes j).edges := by
  cases prev with
  | none => rfl
  | some p =>
      simp only [linkPrev, getN_modifyN]
      split <;> rfl

theorem linkPrev_sl_some (nodes : List STNode) (prev : Option Nat) (t j q : Nat)
    (h : (getN (linkPrev nodes prev t) j).suffix_link = some q) :
    q = t ∨ (getN nodes j).suffix_link = some q := by
  cases prev with
  | none => exact Or.inr h
  | some p =>
      simp only [linkPrev, getN_modifyN] at h
      rcases Decidable.em (p = j ∧ j < nodes.length) with hc | hc
      · rw [if_pos hc] at h
        exact Or.inl (Option.some.inj h).symm
      · rw [if_neg hc] at h
        exact Or.inr h

theorem leafNodes_length (strIdx index : Nat) (prev : Option Nat)
    (nodes : List STNode) (A : Nat) (c : Char) :
    (leafNodes strIdx index prev nodes A c).length = nodes.length + 1 := by
  simp [leafNodes, linkPrev_length, length_modifyN, add_child_length]

theorem leafNodes_parent (strIdx index : Nat) (prev : Option Nat)
    (nodes : List STNode) (A : Nat) (c : Char) (j : Nat) :
    (getN (leafNodes strIdx index prev nodes A c) j).parent =
      if j = nodes.length then some A else (getN nodes j).parent := by
  simp only [leafNodes]
  rw [linkPrev_parent, modifyN_bvset_parent, add_child_parent]

theorem leafNodes_edges (strIdx index : Nat) (prev : Option Nat)
    (nodes : List STNode) (A : Nat) (c : Char) (hA : A < nodes.length)
    (j : Nat) :
    (getN (leafNodes strIdx index prev nodes A c) j).edges =
      if j = A then edgesInsert (getN nodes A).edges c nodes.length
      else if j = nodes.length then []
      else (getN nodes j).edges := by
  simp only [leafNodes]
  rw [linkPrev_edges, modifyN_bvset_edges, add_child_edges _ _ _ _ _ hA]

theorem leafNodes_sl (strIdx index : Nat) (prev : Option Nat)
    (nodes : List STNode) (A : Nat) (c : Char) (j q : Nat)
    (h : (getN (leafNodes strIdx index prev nodes A c) j).suffix_link = some q) :
    q = A ∨ (getN nodes j).suffix_link = some q := by
  simp only [leafNodes] at h
  rcases linkPrev_sl_some _ _ _ _ _ h with h1 | h1
  · exact Or.inl h1
  · rw [modifyN_bvset_sl, add_child_sl] at h1
    by_cases hj : j = nodes.length
    · rw [if_pos hj] at h1
      exact Option.noConfusion h1
    · rw [if_neg hj] at h1
      exact Or.inr h1

theorem leafNodes_bv (strIdx index : Nat) (prev : Option Nat)
    (nodes : List STNode) (A : Nat) (c : Char) (j : Nat) :
    (getN (leafNodes strIdx index prev nodes A c) j).bit_vector =
      if j = nodes.length then 2 ^ strIdx else (getN nodes j).bit_vector := by
  simp only [leafNodes]
  rw [linkPrev_bv, getN_modifyN]
  by_cases hj : j = nodes.length
  · subst hj
    rw [if_pos ⟨rfl, by rw [add_child_length]; omega⟩, if_pos rfl]
  · rw [if_neg (fun hc => hj hc.1.symm), add_child_bv, if_neg hj, if_neg hj]

theorem splitNodes_length (input : List Char) (strIdx index : Nat)
    (prev : Option Nat) (nodes : List STNode) (A : Nat) (c : Char)
    (nextId alen : Nat) :
    (splitNodes input strIdx index prev nodes A c nextId alen).length =
      nodes.length + 2 := by
  simp [splitNodes, linkPrev_length, length_modifyN, add_child_length,
    add_existing_length]

theorem splitNodes_parent (input : List Char) (strIdx index : Nat)
    (prev : Option Nat) (nodes : List STNode) (A : Nat) (c : Char)
    (nextId alen : Nat) (hnext : nextId < nodes.length) (j : Nat) :
    (getN (splitNodes input strIdx index prev nodes A c nextId alen) j).parent =
      if j = nodes.length + 1 then some nodes.length
      else if j = nextId then some nodes.length
      else if j = nodes.length then some A
      else (getN nodes j).parent := by
  simp only [splitNodes, add_child_snd]
  rw [linkPrev_parent, modifyN_bvset_parent, add_child_parent,
    add_existing_parent _ _ _ _
      (by rw [length_modifyN, add_child_length]; omega),
    modifyN_startset_parent, add_child_parent, add_existing_length,
    length_modifyN, add_child_length]

theorem splitNodes_edges (input : List Char) (strIdx index : Nat)
    (prev : Option Nat) (nodes : List STNode) (A : Nat) (c : Char)
    (nextId alen : Nat) (hA : A < nodes.length) (hnext : nextId < nodes.length)
    (j : Nat) :
    (getN (splitNodes input strIdx index prev nodes A c nextId alen) j).edges =
      if j = A then edgesInsert (getN nodes A).edges c nodes.length
      else if j = nodes.length then
        edgesInsert
          (edgesInsert [] (charAt input ((getN nodes nextId).start + alen)) nextId)
          (charAt input index) (nodes.length + 1)
      else if j = nodes.length + 1 then []
      else (getN nodes j).edges := by
  simp only [splitNodes, add_child_snd]
  rw [linkPrev_edges, modifyN_bvset_edges]
  rw [add_child_edges _ _ _ _ _ (by rw [add_existing_length, length_modifyN, add_child_length]; omega)]
  rw [add_existing_edges _ _ _ _ (by rw [length_modifyN, add_child_length]; omega)]
  rw [add_existing_edges _ _ _ _ (by rw [length_modifyN, add_child_length]; omega)]
  rw [modifyN_startset_edges, modifyN_startset_edges]
  rw [add_child_edges _ _ _ _ _ hA, add_child_edges _ _ _ _ _ hA]
  rw [modifyN_startset_start _ _ _ _ (by rw [add_child_length]; omega)]
  rw [add_child_start]
  simp only [add_existing_length, length_modifyN, add_child_length, if_true]
  split_ifs <;> first | rfl | (exfalso; omega)

theorem splitNodes_sl (input : List Char) (strIdx index : Nat)
    (prev : Option Nat) (nodes : List STNode) (A : Nat) (c : Char)
    (nextId alen : Nat) (j q : Nat)
    (h : (getN (splitNodes input strIdx index prev nodes A c nextId alen)
      j).suffix_link = some q) :
    q = nodes.length ∨ (getN nodes j).suffix_link = some q := by
  simp only [splitNodes, add_child_snd] at h
  rcases linkPrev_sl_some _ _ _ _ _ h with h1 | h1
  · exact Or.inl h1
  · rw [modifyN_bvset_sl, add_child_sl, add_existing_length, length_modifyN,
      add_child_length] at h1
    by_cases hj : j = nodes.length + 1
    · rw [if_pos hj] at h1
      exact Option.noConfusion h1
    · rw [if_neg hj, add_existing_sl, modifyN_startset_sl, add_child_sl] at h1
      by_cases hj2 : j = nodes.length
      · rw [if_pos hj2] at h1
        exact Option.noConfusion h1
      · rw [if_neg hj2] at h1
        exact Or.inr h1

theorem splitNodes_bv (input : List Char) (strIdx index : Nat)
    (prev : Option Nat) (nodes : List STNode) (A : Nat) (c : Char)
    (nextId alen : Nat) (j : Nat) :
    (getN (splitNodes input strIdx index prev nodes A c nextId alen)
      j).bit_vector =
      if j = nodes.length + 1 then 2 ^ strIdx
      else if j = nodes.length then 0
      else (getN nodes j).bit_vector := by
  simp only [splitNodes, add_child_snd]
  rw [linkPrev_bv, getN_modifyN, add_existing_length, length_modifyN,
    add_child_length]
  by_cases hj : j = nodes.length + 1
  · subst hj
    rw [if_pos ⟨rfl, by rw [add_child_length, add_existing_length,
        length_modifyN, add_child_length]; omega⟩, if_pos rfl]
  · rw [if_neg (fun hc => hj hc.1.symm), if_neg hj, add_child_bv,
      add_existing_length, length_modifyN, add_child_length, if_neg hj,
      add_existing_bv, modifyN_startset_bv, add_child_bv]

/-! ### Well-formedness preservation (C9) -/

theorem edgesLookup_cons (k0 : Char) (w0 : Nat) (t : List (Char × Nat))
    (c : Char) :
    edgesLookup ((k0, w0) :: t) c = if k0 = c then some w0 else edgesLookup t c := by
  by_cases h : k0 = c
  · simp [edgesLookup, List.find?, h]
  · simp [edgesLookup, List.find?, h]

theorem edgesLookup_edgesInsert (es : List (Char × Nat)) (k : Char) (v : Nat)
    (k' : Char) :
    edgesLookup (edgesInsert es k v) k' =
      if k' = k then some v else edgesLookup es k' := by
  induction es with
  | nil =>
      simp only [edgesInsert]
      rw [edgesLookup_cons]
      by_cases h : k' = k
      · rw [if_pos h.symm, if_pos h]
      · rw [if_neg (fun hc => h hc.symm), if_neg h]
  | cons e t ih =>
      obtain ⟨k0, w0⟩ := e
      simp only [edgesInsert]
      by_cases hk0 : k0 = k
      · rw [if_pos hk0, edgesLookup_cons, edgesLookup_cons]
        by_cases h : k = k'
        · rw [if_pos h, if_pos h.symm]
        · rw [if_neg h, if_neg (fun hc => h hc.symm),
            if_neg (show ¬ k0 = k' from fun hc => h (hk0.symm.trans hc))]
      · rw [if_neg hk0, edgesLookup_cons, ih, edgesLookup_cons]
        by_cases h0 : k0 = k'
        · have hk : ¬ k' = k := fun hc => hk0 (h0.trans hc)
          rw [if_pos h0, if_neg hk, if_pos h0]
        · rw [if_neg h0]
          by_cases h1 : k' = k
          · rw [if_pos h1, if_pos h1]
          · rw [if_neg h1, if_neg h1, if_neg h0]

theorem iterate_parentStep_congr {a b : List STNode}
    (h : ∀ o : Option Nat, parentStep a o = parentStep b o) (k : Nat) :
    ∀ o : Option Nat, (parentStep a)^[k] o = (parentStep b)^[k] o := by
  induction k with
  | zero => intro o; rfl
  | succ k ih =>
      intro o
      rw [Function.iterate_succ_apply, Function.iterate_succ_apply, h, ih]

/-- Old parent chains stay inside the arena. -/
theorem iterate_lt (nodes : List STNode)
    (hrange : ∀ id p, (getN nodes id).parent = some p → p < nodes.length) :
    ∀ (k : Nat) (x : Nat), x < nodes.length →
      ∀ y, (parentStep nodes)^[k] (some x) = some y → y < nodes.length := by
  intro k
  induction k with
  | zero =>
      intro x hx y hy
      rw [Function.iterate_zero_apply] at hy
      rwa [← Option.some.inj hy]
  | succ k ih =>
      intro x hx y hy
      rw [Function.iterate_succ_apply] at hy
      show y < nodes.length
      cases hp : (getN nodes x).parent with
      | none =>
          rw [show parentStep nodes (some x) = none from hp] at hy
          rw [iterate_none] at hy
          exact Option.noConfusion hy
      | some p =>
          rw [show parentStep nodes (some x) = some p from hp] at hy
          exact ih p (hrange x p hp) y hy

/-! ### Bitwise-or toolkit for the propagation analysis -/

theorem or_sub_iff (a b : Nat) :
    a ||| b = b ↔ ∀ i, a.testBit i = true → b.testBit i = true := by
  constructor
  · intro h i hi
    have hcongr := congrArg (fun n => Nat.testBit n i) h
    simp only [Nat.testBit_or] at hcongr
    rw [← hcongr, hi, Bool.true_or]
  · intro h
    apply Nat.eq_of_testBit_eq
    intro i
    rw [Nat.testBit_or]
    cases hb : b.testBit i
    · cases ha : a.testBit i
      · rfl
      · rw [h i ha] at hb
        exact Bool.noConfusion hb
    · rw [Bool.or_true]

theorem or_sub_or {a b c : Nat} (ha : a ||| c = c) (hb : b ||| c = c) :
    (a ||| b) ||| c = c := by
  rw [Nat.or_assoc, hb, ha]

theorem or_sub_left (a b : Nat) : a ||| (a ||| b) = a ||| b := by
  rw [← Nat.or_assoc, Nat.or_self]

theorem or_sub_right (a b : Nat) : b ||| (a ||| b) = a ||| b := by
  rw [Nat.or_comm b, Nat.or_assoc, Nat.or_self]

theorem or_sub_trans {a b c : Nat} (h1 : a ||| b = b) (h2 : b ||| c = c) :
    a ||| c = c := by
  rw [← h2, ← Nat.or_assoc, h1]

theorem or_sub_antisymm {a b : Nat} (h1 : a ||| b = b) (h2 : b ||| a = a) :
    a = b := by
  rw [← h2, Nat.or_comm, h1]

theorem foldl_orIf_testBit (bvf : Nat → Nat) (cond : Nat → Prop)
    [DecidablePred cond] :
    ∀ (P : List Nat) (acc : Nat) (b : Nat),
      ((P.foldl (fun a l => if cond l then a ||| bvf l else a) acc).testBit b
          = true) ↔
        (acc.testBit b = true ∨
          ∃ l, l ∈ P ∧ cond l ∧ (bvf l).testBit b = true) := by
  intro P
  induction P with
  | nil =>
      intro acc b
      simp
  | cons x t ih =>
      intro acc b
      rw [List.foldl_cons]
      by_cases hc : cond x
      · rw [if_pos hc, ih]
        constructor
        · rintro (h | ⟨l, hl, hcl, hbit⟩)
          · rw [Nat.testBit_or, Bool.or_eq_true] at h
            rcases h with h | h
            · exact Or.inl h
            · exact Or.inr ⟨x, List.mem_cons_self x t, hc, h⟩
          · exact Or.inr ⟨l, List.mem_cons_of_mem x hl, hcl, hbit⟩
        · rintro (h | ⟨l, hl, hcl, hbit⟩)
          · left
            rw [Nat.testBit_or, Bool.or_eq_true]
            exact Or.inl h
          · rcases List.mem_cons.mp hl with rfl | hl'
            · left
              rw [Nat.testBit_or, Bool.or_eq_true]
              exact Or.inr hbit
            · exact Or.inr ⟨l, hl', hcl, hbit⟩
      · rw [if_neg hc, ih]
        constructor
        · rintro (h | ⟨l, hl, hcl, hbit⟩)
          · exact Or.inl h
          · exact Or.inr ⟨l, List.mem_cons_of_mem x hl, hcl, hbit⟩
        · rintro (h | ⟨l, hl, hcl, hbit⟩)
          · exact Or.inl h
          · rcases List.mem_cons.mp hl with rfl | hl'
            · exact absurd hcl hc
            · exact Or.inr ⟨l, hl', hcl, hbit⟩

theorem subtreeOr_testBit (nodes : List STNode) (P : List Nat) (id b : Nat) :
    (subtreeOr nodes P id).testBit b = true ↔
      ∃ l, l ∈ P ∧ id ∈ chainF nodes (nodes.length + 2) (some l) ∧
        ((getN nodes l).bit_vector).testBit b = true := by
  have h := foldl_orIf_testBit (fun l => (getN nodes l).bit_vector)
    (fun l => id ∈ chainF nodes (nodes.length + 2) (some l)) P 0 b
  rw [show subtreeOr nodes P id =
    P.foldl
      (fun a l =>
        if id ∈ chainF nodes (nodes.length + 2) (some l) then
          a ||| (getN nodes l).bit_vector
        else a) 0 from rfl, h]
  simp

theorem subtreeOr_append_one (nodes : List STNode) (P : List Nat) (l id : Nat) :
    subtreeOr nodes (P ++ [l]) id =
      if id ∈ chainF nodes (nodes.length + 2) (some l) then
        subtreeOr nodes P id ||| (getN nodes l).bit_vector
      else subtreeOr nodes P id := by
  simp only [subtreeOr, List.foldl_append, List.foldl_cons, List.foldl_nil]

theorem posHit_iff (nodes : List STNode) (l d id : Nat) :
    posHit nodes l d id = true ↔
      ∃ e, e < d ∧ (parentStep nodes)^[e] (some l) = some id := by
  simp [posHit, List.any_eq_true, List.mem_range]

theorem posHit_zero (nodes : List STNode) (l id : Nat) :
    posHit nodes l 0 id = false := rfl

theorem posHit_succ (nodes : List STNode) (l d id : Nat) :
    posHit nodes l (d + 1) id =
      (posHit nodes l d id ||
        decide ((parentStep nodes)^[d] (some l) = some id)) := by
  simp [posHit, List.range_succ]

theorem posHit_self_false (nodes : List STNode) (l d y K : Nat)
    (hK : (parentStep nodes)^[K] (some l) = none)
    (hd : (parentStep nodes)^[d] (some l) = some y) :
    posHit nodes l d y = false := by
  by_contra h
  rw [Bool.not_eq_false, posHit_iff] at h
  obtain ⟨e, he, hey⟩ := h
  exact iterate_no_dup nodes (some l) K e d y hK hey hd he

theorem chain_absorb (nodes : List STNode) (s x z K : Nat)
    (hK : (parentStep nodes)^[K] (some s) = none) (hKle : K ≤ nodes.length)
    (k : Nat) (hk : (parentStep nodes)^[k] (some s) = some x)
    (m : Nat) (hm : (parentStep nodes)^[m] (some x) = some z) :
    z ∈ chainF nodes (nodes.length + 2) (some s) := by
  have hmk : (parentStep nodes)^[m + k] (some s) = some z := by
    rw [Function.iterate_add_apply, hk]
    exact hm
  have hlt : m + k < K := by
    by_contra hge
    rw [iterate_none_mono nodes K (m + k) _ hK (Nat.le_of_not_lt hge)] at hmk
    exact Option.noConfusion hmk
  exact (chainF_mem_iff nodes _ _ _).mpr ⟨m + k, by omega, hmk⟩

theorem posHit_chainF_eq (N : List STNode) (l d id : Nat)
    (hterm : ∃ k, k ≤ N.length ∧ (parentStep N)^[k] (some l) = none)
    (hnone : (parentStep N)^[d] (some l) = none) :
    (posHit N l d id = true) ↔ id ∈ chainF N (N.length + 2) (some l) := by
  obtain ⟨K, hKle, hK⟩ := hterm
  rw [posHit_iff, chainF_mem_iff]
  constructor
  · rintro ⟨e, _, he⟩
    have heK : e < K := by
      by_contra hge
      rw [iterate_none_mono N K e _ hK (Nat.le_of_not_lt hge)] at he
      exact Option.noConfusion he
    exact ⟨e, by omega, he⟩
  · rintro ⟨e, _, he⟩
    have hed : e < d := by
      by_contra hge
      rw [iterate_none_mono N d e _ hnone (Nat.le_of_not_lt hge)] at he
      exact Option.noConfusion he
    exact ⟨e, hed, he⟩

theorem eqButBv_symm {a b : List STNode} (h : eqButBv a b) : eqButBv b a := by
  refine ⟨h.1.symm, fun j => ?_⟩
  obtain ⟨s, e, d, p, l⟩ := h.2 j
  exact ⟨s.symm, e.symm, d.symm, p.symm, l.symm⟩

theorem subtreeOr_chain_mono (nodes : List STNode) (P : List Nat)
    (hterm : ∀ id, ∃ k, k ≤ nodes.length ∧
      (parentStep nodes)^[k] (some id) = none)
    (y z m : Nat) (hm : (parentStep nodes)^[m] (some y) = some z) :
    subtreeOr nodes P y ||| subtreeOr nodes P z = subtreeOr nodes P z := by
  rw [or_sub_iff]
  intro b hb
  rw [subtreeOr_testBit] at hb ⊢
  obtain ⟨lp, hlp, hchain, hbit⟩ := hb
  obtain ⟨k, _, hky⟩ := (chainF_mem_iff nodes _ _ _).mp hchain
  obtain ⟨K, hKle, hK⟩ := hterm lp
  exact ⟨lp, hlp, chain_absorb nodes lp y z K hK hKle k hky m hm, hbit⟩

theorem leafbv_chain_sub (nodes : List STNode) (P : List Nat)
    (hterm : ∀ id, ∃ k, k ≤ nodes.length ∧
      (parentStep nodes)^[k] (some id) = none)
    (y z m : Nat) (hyP : y ∈ P)
    (hm : (parentStep nodes)^[m] (some y) = some z) :
    (getN nodes y).bit_vector ||| subtreeOr nodes P z = subtreeOr nodes P z := by
  rw [or_sub_iff]
  intro b hb
  rw [subtreeOr_testBit]
  obtain ⟨K, hKle, hK⟩ := hterm y
  exact ⟨y, hyP, chain_absorb nodes y y z K hK hKle 0 rfl m hm, hb⟩

theorem subtreeOr_self_prefix (nodes : List STNode) (P : List Nat) (l : Nat)
    (hPl : ∀ p ∈ P, ∀ k, (parentStep nodes)^[k + 1] (some p) ≠ some l) :
    subtreeOr nodes P l ||| (getN nodes l).bit_vector =
      (getN nodes l).bit_vector := by
  rw [or_sub_iff]
  intro b hb
  rw [subtreeOr_testBit] at hb
  obtain ⟨lp, hlp, hchain, hbit⟩ := hb
  obtain ⟨k, _, hkl⟩ := (chainF_mem_iff _ _ _ _).mp hchain
  cases k with
  | zero =>
      rw [Function.iterate_zero_apply] at hkl
      obtain rfl := Option.some.inj hkl
      exact hbit
  | succ k => exact absurd hkl (hPl lp hlp k)

theorem prefix_not_through (N : List STNode) (leaves P rest : List Nat) (l : Nat)
    (hsplit : leaves = P ++ l :: rest)
    (hpair : List.Pairwise
      (fun x y => ∀ k, (parentStep N)^[k + 1] (some x) ≠ some y) leaves) :
    ∀ p ∈ P, ∀ k, (parentStep N)^[k + 1] (some p) ≠ some l := by
  rw [hsplit] at hpair
  obtain ⟨_, _, hcross⟩ := List.pairwise_append.mp hpair
  intro p hp k
  exact hcross p hp l (List.mem_cons_self _ _) k

theorem walkUp_zero (classes : List (String × List Nat)) (o : Option Nat)
    (prev : Nat) (nodes : List STNode) (lcas : List Nat) :
    walkUp classes 0 o prev nodes lcas = (nodes, lcas) := by
  cases o <;> rfl

theorem walkUp_none (classes : List (String × List Nat)) (fuel prev : Nat)
    (nodes : List STNode) (lcas : List Nat) :
    walkUp classes (fuel + 1) none prev nodes lcas = (nodes, lcas) := rfl

theorem anc_in_prefix (N : List STNode) (leaves P rest : List Nat) (l : Nat)
    (hsplit : leaves = P ++ l :: rest)
    (hpair : List.Pairwise
      (fun x y => ∀ k, (parentStep N)^[k + 1] (some x) ≠ some y) leaves)
    (hterm : ∃ k, k ≤ N.length ∧ (parentStep N)^[k] (some l) = none)
    (hbv0 : ∀ id, id ∉ leaves → (getN N id).bit_vector = 0)
    (d y : Nat) (hd : 1 ≤ d) (hy : (parentStep N)^[d] (some l) = some y) :
    y ∈ P ∨ (getN N y).bit_vector = 0 := by
  by_cases hyl : y ∈ leaves
  · rw [hsplit] at hyl
    rcases List.mem_append.mp hyl with hP | hlr
    · exact Or.inl hP
    · rcases List.mem_cons.mp hlr with rfl | hrest
      · obtain ⟨K, _, hK⟩ := hterm
        exact (iterate_no_dup N (some y) K 0 d y hK rfl hy hd).elim
      · rw [hsplit] at hpair
        obtain ⟨_, hlr', _⟩ := List.pairwise_append.mp hpair
        have hR := (List.pairwise_cons.mp hlr').1 y hrest (d - 1)
        rw [Nat.sub_add_cancel hd] at hR
        exact absurd hy hR
  · exact Or.inr (hbv0 y hyl)

/-- Exactness of one upward propagation walk: starting the walk of
find_common_substrings at the leaf `l` (recorded after the already
processed prefix `P`) on an arena whose bit vectors carry exactly the base
values plus the contributions of `P`, the walk adds `l`'s bit vector to
exactly the nodes of `l`'s parent chain — the early break loses nothing. -/
theorem walkUp_exact (classes : List (String × List Nat)) (N : List STNode)
    (leaves P rest : List Nat) (l : Nat)
    (hwf : Wf N leaves) (hsplit : leaves = P ++ l :: rest) :
    ∀ (fuel d : Nat) (o : Option Nat) (prev : Nat) (cur : List STNode)
      (lcas : List Nat),
      (∃ K, K < d + fuel ∧ (parentStep N)^[K] (some l) = none) →
      o = (parentStep N)^[d] (some l) →
      eqButBv N cur →
      (d = 0 → prev = 0) →
      (1 ≤ d → ∀ y, o = some y →
        prev ||| ((getN N y).bit_vector ||| subtreeOr N P y |||
          (getN N l).bit_vector) =
          (getN N y).bit_vector ||| subtreeOr N P y ||| (getN N l).bit_vector) →
      (1 ≤ d → (getN N l).bit_vector ||| prev = prev) →
      (∀ j, (getN cur j).bit_vector =
        (getN N j).bit_vector ||| subtreeOr N P j |||
          (if posHit N l d j then (getN N l).bit_vector else 0)) →
      ∀ id,
        (getN (walkUp classes fuel o prev cur lcas).1 id).bit_vector =
          (getN N id).bit_vector ||| subtreeOr N P id |||
            (if id ∈ chainF N (N.length + 2) (some l)
             then (getN N l).bit_vector else 0) := by
  obtain ⟨h1, h2, h3, h4, h5, h6, h7, h8, h9, h10⟩ := hwf
  have hlmem : l ∈ leaves := by
    rw [hsplit]
    exact List.mem_append_right _ (List.mem_cons_self _ _)
  have hllt : l < N.length := h8 l hlmem
  intro fuel
  induction fuel with
  | zero =>
      intro d o prev cur lcas hfuel ho heq hprev0 hprevub hprevlb hval id
      obtain ⟨K, hKlt, hK⟩ := hfuel
      have hnone : (parentStep N)^[d] (some l) = none :=
        iterate_none_mono N K d _ hK (by omega)
      rw [walkUp_zero]
      show (getN cur id).bit_vector = _
      rw [hval id]
      congr 1
      exact if_congr (posHit_chainF_eq N l d id (h7 l) hnone) rfl rfl
  | succ fuel ih =>
      intro d o prev cur lcas hfuel ho heq hprev0 hprevub hprevlb hval id
      cases o with
      | none =>
          rw [walkUp_none]
          show (getN cur id).bit_vector = _
          rw [hval id]
          congr 1
          exact if_congr (posHit_chainF_eq N l d id (h7 l) ho.symm) rfl rfl
      | some y =>
          have hsome : (parentStep N)^[d] (some l) = some y := ho.symm
          have hylt : y < N.length := iterate_lt N h2 d l hllt y hsome
          obtain ⟨Kl, hKlle, hKl⟩ := h7 l
          rw [walkUp_succ_some]
          by_cases hbr : prev ≠ 0 ∧
            ((getN cur y).bit_vector ||| prev) = (getN cur y).bit_vector
          · rw [if_pos hbr]
            have hd1 : 1 ≤ d := by
              rcases Nat.eq_zero_or_pos d with rfl | h
              · exact absurd (hprev0 rfl) hbr.1
              · exact h
            have hyhit : posHit N l d y = false :=
              posHit_self_false N l d y Kl hKl hsome
            have hcury : (getN cur y).bit_vector =
                (getN N y).bit_vector ||| subtreeOr N P y := by
              rw [hval y, hyhit, if_neg Bool.false_ne_true, Nat.or_zero]
            have hlby : (getN N l).bit_vector |||
                ((getN N y).bit_vector ||| subtreeOr N P y) =
                (getN N y).bit_vector ||| subtreeOr N P y := by
              have hpy : prev ||| ((getN N y).bit_vector ||| subtreeOr N P y) =
                  (getN N y).bit_vector ||| subtreeOr N P y := by
                rw [← hcury, Nat.or_comm]
                exact hbr.2
              exact or_sub_trans (hprevlb hd1) hpy
            show (getN cur id).bit_vector = _
            rw [hval id]
            by_cases hch : id ∈ chainF N (N.length + 2) (some l)
            · rw [if_pos hch]
              cases hhit : posHit N l d id with
              | true => rw [if_pos rfl]
              | false =>
                  rw [if_neg Bool.false_ne_true]
                  obtain ⟨e, helt, he⟩ := (chainF_mem_iff N _ _ _).mp hch
                  have hed : d ≤ e := by
                    by_contra hlt
                    rw [(posHit_iff N l d id).mpr ⟨e, by omega, he⟩] at hhit
                    exact Bool.noConfusion hhit
                  have hanc : (parentStep N)^[e - d] (some y) = some id := by
                    have hadd :=
                      Function.iterate_add_apply (parentStep N) (e - d) d (some l)
                    rw [Nat.sub_add_cancel hed, hsome] at hadd
                    rw [← hadd]
                    exact he
                  have hbase : ((getN N y).bit_vector ||| subtreeOr N P y) |||
                      subtreeOr N P id = subtreeOr N P id := by
                    refine or_sub_or ?_ (subtreeOr_chain_mono N P h7 y id _ hanc)
                    rcases anc_in_prefix N leaves P rest l hsplit h10 (h7 l) h9
                        d y hd1 hsome with hyP | hy0
                    · exact leafbv_chain_sub N P h7 y id _ hyP hanc
                    · rw [hy0, Nat.zero_or]
                  have hsub : (getN N l).bit_vector |||
                      ((getN N id).bit_vector ||| subtreeOr N P id) =
                      (getN N id).bit_vector ||| subtreeOr N P id :=
                    or_sub_trans hlby (or_sub_trans hbase (or_sub_right _ _))
                  rw [Nat.or_zero]
                  conv_rhs => rw [Nat.or_comm, hsub]
            · rw [if_neg hch]
              cases hhit : posHit N l d id with
              | false => rw [if_neg Bool.false_ne_true]
              | true =>
                  exfalso
                  obtain ⟨e, helt, he⟩ := (posHit_iff N l d id).mp hhit
                  have heK : e < Kl := by
                    by_contra hge
                    rw [iterate_none_mono N Kl e _ hKl (Nat.le_of_not_lt hge)] at he
                    exact Option.noConfusion he
                  exact hch ((chainF_mem_iff N _ _ _).mpr ⟨e, by omega, he⟩)
          · rw [if_neg hbr]
            have hparent : (getN cur y).parent =
                (parentStep N)^[d + 1] (some l) := by
              rw [Function.iterate_succ_apply', hsome]
              exact ((heq.2 y).2.2.2.1).symm
            obtain ⟨K, hKlt, hK⟩ := hfuel
            rcases Nat.eq_zero_or_pos d with rfl | hd1
            · obtain rfl : y = l := by
                have hz := hsome
                rw [Function.iterate_zero_apply] at hz
                exact (Option.some.inj hz).symm
              have hprevz : prev = 0 := hprev0 rfl
              subst hprevz
              rw [Nat.zero_add] at hparent
              have hcurl : (getN cur y).bit_vector =
                  (getN N y).bit_vector ||| subtreeOr N P y := by
                rw [hval y, posHit_zero, if_neg Bool.false_ne_true, Nat.or_zero]
              refine ih 1 _ _ _ _ ⟨K, by omega, hK⟩ hparent
                (eqButBv_trans heq (eqButBv_symm (eqButBv_setBv cur y _)))
                (fun h => absurd h one_ne_zero) ?_ ?_ ?_ id
              · intro _ y2 hy2
                have hm1 : (parentStep N)^[1] (some y) = some y2 := by
                  show (getN N y).parent = some y2
                  rw [(heq.2 y).2.2.2.1]
                  exact hy2
                rw [Nat.or_zero, hcurl]
                refine or_sub_or ?_ ?_
                · exact or_sub_right _ _
                · exact or_sub_trans (subtreeOr_chain_mono N P h7 y y2 1 hm1)
                    (or_sub_trans (or_sub_right _ _) (or_sub_left _ _))
              · intro _
                rw [Nat.or_zero, hcurl, ← Nat.or_assoc, Nat.or_self]
              · intro j
                by_cases hjy : j = y
                · subst hjy
                  rw [getN_setN_self cur j _ (by rw [← heq.1]; exact hylt)]
                  show (getN cur j).bit_vector ||| 0 = _
                  have hhit1 : posHit N j 1 j = true := by
                    rw [posHit_succ, posHit_zero, Bool.false_or]
                    exact decide_eq_true rfl
                  rw [hhit1, if_pos rfl, Nat.or_zero, hcurl,
                    Nat.or_comm ((getN N j).bit_vector ||| subtreeOr N P j)
                      ((getN N j).bit_vector), or_sub_left]
                · rw [getN_setN_ne cur y j _ (fun h => hjy h.symm), hval j]
                  congr 1
                  have hp1 : posHit N y 1 j = posHit N y 0 j := by
                    rw [posHit_succ, posHit_zero, Bool.false_or,
                      Function.iterate_zero_apply]
                    rw [decide_eq_false
                      (fun h => hjy (Option.some.inj h).symm)]
                  rw [hp1]
            · have hyhit : posHit N l d y = false :=
                posHit_self_false N l d y Kl hKl hsome
              have hcury : (getN cur y).bit_vector =
                  (getN N y).bit_vector ||| subtreeOr N P y := by
                rw [hval y, hyhit, if_neg Bool.false_ne_true, Nat.or_zero]
              have hlbp : (getN N l).bit_vector ||| prev = prev := hprevlb hd1
              have hubp := hprevub hd1 y rfl
              have hprev' : (getN cur y).bit_vector ||| prev =
                  (getN N y).bit_vector ||| subtreeOr N P y |||
                    (getN N l).bit_vector := by
                apply or_sub_antisymm
                · refine or_sub_or ?_ hubp
                  rw [hcury]
                  exact or_sub_left _ _
                · refine or_sub_or ?_ ?_
                  · rw [hcury]
                    exact or_sub_left _ _
                  · exact or_sub_trans hlbp (or_sub_right _ _)
              refine ih (d + 1) _ _ _ _ ⟨K, by omega, hK⟩ hparent
                (eqButBv_trans heq (eqButBv_symm (eqButBv_setBv cur y _)))
                (fun h => absurd h (Nat.succ_ne_zero d)) ?_ ?_ ?_ id
              · intro _ y2 hy2
                have hm1 : (parentStep N)^[1] (some y) = some y2 := by
                  show (getN N y).parent = some y2
                  rw [(heq.2 y).2.2.2.1]
                  exact hy2
                rw [hprev']
                refine or_sub_or (or_sub_or ?_ ?_) ?_
                · rcases anc_in_prefix N leaves P rest l hsplit h10 (h7 l) h9
                      d y hd1 hsome with hyP | hy0
                  · exact or_sub_trans (leafbv_chain_sub N P h7 y y2 1 hyP hm1)
                      (or_sub_trans (or_sub_right _ _) (or_sub_left _ _))
                  · rw [hy0, Nat.zero_or]
                · exact or_sub_trans (subtreeOr_chain_mono N P h7 y y2 1 hm1)
                    (or_sub_trans (or_sub_right _ _) (or_sub_left _ _))
                · exact or_sub_right _ _
              · intro _
                exact or_sub_trans hlbp (or_sub_right _ _)
              · intro j
                by_cases hjy : j = y
                · subst hjy
                  rw [getN_setN_self cur j _ (by rw [← heq.1]; exact hylt)]
                  show (getN cur j).bit_vector ||| prev = _
                  have hhit : posHit N l (d + 1) j = true := by
                    rw [posHit_succ, decide_eq_true hsome, Bool.or_true]
                  rw [hhit, if_pos rfl]
                  exact hprev'
                · rw [getN_setN_ne cur y j _ (fun h => hjy h.symm), hval j]
                  congr 1
                  have hp1 : posHit N l (d + 1) j = posHit N l d j := by
                    rw [posHit_succ]
                    rw [decide_eq_false
                      (fun h => hjy (Option.some.inj (hsome.symm.trans h)).symm)]
                    rw [Bool.or_false]
                  rw [hp1]

/-- Exactness of the whole first phase of find_common_substrings: folding
the upward walk over the recorded leaves, in recording order, computes at
every node the base bit vector joined with the subtree contributions of
the processed leaves. -/
theorem propagate_exact (classes : List (String × List Nat)) (N : List STNode)
    (leaves : List Nat) (hwf : Wf N leaves) :
    ∀ (rest processed : List Nat) (cur : List STNode) (lcas : List Nat),
      leaves = processed ++ rest →
      eqButBv N cur →
      (∀ j, (getN cur j).bit_vector =
        (getN N j).bit_vector ||| subtreeOr N processed j) →
      ∀ id,
        (getN
          (rest.foldl
            (fun pr leaf =>
              walkUp classes (N.length + 2) (some leaf) 0 pr.1 pr.2)
            (cur, lcas)).1 id).bit_vector =
          (getN N id).bit_vector ||| subtreeOr N (processed ++ rest) id := by
  intro rest
  induction rest with
  | nil =>
      intro processed cur lcas hsplit heq hval id
      rw [List.foldl_nil, List.append_nil]
      exact hval id
  | cons l rest' ih =>
      intro processed cur lcas hsplit heq hval id
      rw [List.foldl_cons]
      have hsplit' : leaves = (processed ++ [l]) ++ rest' := by
        rw [hsplit, List.append_assoc, List.singleton_append]
      have hterml := hwf.2.2.2.2.2.2.1 l
      obtain ⟨K, hKle, hK⟩ := hterml
      have hwalk := walkUp_exact classes N leaves processed rest' l hwf hsplit
        (N.length + 2) 0 (some l) 0 cur lcas
        ⟨K, by omega, hK⟩ rfl heq (fun _ => rfl)
        (fun h => absurd h (by omega)) (fun h => absurd h (by omega))
        (fun j => by
          rw [posHit_zero, if_neg Bool.false_ne_true, Nat.or_zero]
          exact hval j)
      have hval' : ∀ j,
          (getN (walkUp classes (N.length + 2) (some l) 0 cur lcas).1
            j).bit_vector =
          (getN N j).bit_vector ||| subtreeOr N (processed ++ [l]) j := by
        intro j
        rw [hwalk j, subtreeOr_append_one]
        by_cases hch : j ∈ chainF N (N.length + 2) (some l)
        · rw [if_pos hch, if_pos hch, Nat.or_assoc]
        · rw [if_neg hch, if_neg hch, Nat.or_zero]
      have heq' : eqButBv N (walkUp classes (N.length + 2) (some l) 0 cur lcas).1 :=
        eqButBv_trans heq (eqButBv_symm (walkUp_eqButBv classes _ _ _ _ _))
      have hfin := ih (processed ++ [l])
        (walkUp classes (N.length + 2) (some l) 0 cur lcas).1
        (walkUp classes (N.length + 2) (some l) 0 cur lcas).2
        hsplit' heq' hval' id
      rw [List.append_assoc, List.singleton_append] at hfin
      exact hfin

/-- Phase 1 of find_common_substrings on any well-formed tree leaves every
node's bit vector at exactly the OR of the recorded-leaf bit vectors of
its subtree. -/
theorem find_propagates (t : SuffixTree) (m : Nat) (hwf : TreeWf t) :
    ∀ id,
      (getN (find_common_substrings t m).2.nodes id).bit_vector =
        subtreeOr t.nodes t.leaves id := by
  intro id
  rw [find_common_substrings_snd]
  show (getN
    (t.leaves.foldl
      (fun pr leaf =>
        walkUp t.classes (t.nodes.length + 2) (some leaf) 0 pr.1 pr.2)
      (t.nodes, [])).1 id).bit_vector = _
  have h := propagate_exact t.classes t.nodes t.leaves hwf t.leaves [] t.nodes []
    (List.nil_append _).symm (eqButBv_refl _)
    (fun j => by
      rw [show subtreeOr t.nodes [] j = 0 from rfl, Nat.or_zero]) id
  rw [List.nil_append] at h
  rw [h]
  by_cases hid : id ∈ t.leaves
  · rw [or_sub_iff]
    intro b hb
    rw [subtreeOr_testBit]
    exact ⟨id, hid,
      (chainF_mem_iff _ _ _ _).mpr ⟨0, by omega, rfl⟩, hb⟩
  · rw [hwf.2.2.2.2.2.2.2.2.1 id hid, Nat.zero_or]

/-! ### Well-formedness is maintained by the construction -/

theorem parentStep_linkPrev (nodes : List STNode) (prev : Option Nat) (t : Nat)
    (o : Option Nat) :
    parentStep (linkPrev nodes prev t) o = parentStep nodes o := by
  cases o with
  | none => rfl
  | some id =>
      show (getN (linkPrev nodes prev t) id).parent = _
      exact linkPrev_parent _ _ _ _

theorem Wf_linkPrev (nodes : List STNode) (leaves : List Nat) (prev : Option Nat)
    (t : Nat) (hwf : Wf nodes leaves) (ht : t < nodes.length) :
    Wf (linkPrev nodes prev t) leaves := by
  obtain ⟨h1, h2, h3, h4, h5, h6, h7, h8, h9, h10⟩ := hwf
  have hit := iterate_parentStep_congr
    (fun o => parentStep_linkPrev nodes prev t o)
  refine ⟨?_, ?_, ?_, ?_, ?_, ?_, ?_, ?_, ?_, ?_⟩
  · rw [linkPrev_length]
    exact h1
  · intro id p hp
    rw [linkPrev_parent] at hp
    rw [linkPrev_length]
    exact h2 id p hp
  · intro id q hq
    rw [linkPrev_length]
    rcases linkPrev_sl_some _ _ _ _ _ hq with h | h
    · omega
    · exact h3 id q h
  · intro p ch cid hc
    rw [linkPrev_edges] at hc
    rw [linkPrev_length]
    exact h4 p ch cid hc
  · intro p ch cid hc
    rw [linkPrev_edges] at hc
    rw [linkPrev_parent]
    exact h5 p ch cid hc
  · intro p1 c1 p2 c2 cid hc1 hc2
    rw [linkPrev_edges] at hc1 hc2
    exact h6 p1 c1 p2 c2 cid hc1 hc2
  · intro id
    obtain ⟨k, hk, hnone⟩ := h7 id
    exact ⟨k, by rw [linkPrev_length]; exact hk, by rw [hit]; exact hnone⟩
  · intro x hx
    rw [linkPrev_length]
    exact h8 x hx
  · intro id hid
    rw [linkPrev_bv]
    exact h9 id hid
  · refine List.Pairwise.imp ?_ h10
    intro x y hxy k hk
    rw [hit] at hk
    exact hxy k hk

theorem parentStep_leafNodes_old (strIdx index : Nat) (prev : Option Nat)
    (nodes : List STNode) (A : Nat) (c : Char) (x : Nat)
    (hx : x ≠ nodes.length) :
    parentStep (leafNodes strIdx index prev nodes A c) (some x) =
      parentStep nodes (some x) := by
  show (getN (leafNodes strIdx index prev nodes A c) x).parent =
    (getN nodes x).parent
  rw [leafNodes_parent, if_neg hx]

theorem iterate_leafNodes_agree (strIdx index : Nat) (prev : Option Nat)
    (nodes : List STNode) (A : Nat) (c : Char)
    (hrange : ∀ id p, (getN nodes id).parent = some p → p < nodes.length) :
    ∀ (k x : Nat), x < nodes.length →
      (parentStep (leafNodes strIdx index prev nodes A c))^[k] (some x) =
        (parentStep nodes)^[k] (some x) := by
  intro k
  induction k with
  | zero =>
      intro x hx
      rfl
  | succ k ih =>
      intro x hx
      rw [Function.iterate_succ_apply, Function.iterate_succ_apply,
        parentStep_leafNodes_old strIdx index prev nodes A c x (by omega)]
      cases hp : (getN nodes x).parent with
      | none =>
          rw [show parentStep nodes (some x) = none from hp, iterate_none,
            iterate_none]
      | some p =>
          rw [show parentStep nodes (some x) = some p from hp]
          exact ih p (hrange x p hp)

theorem Wf_leafNodes (strIdx index : Nat) (prev : Option Nat)
    (nodes : List STNode) (leaves : List Nat) (A : Nat) (c : Char)
    (hwf : Wf nodes leaves) (hA : A < nodes.length) :
    Wf (leafNodes strIdx index prev nodes A c) (leaves ++ [nodes.length]) := by
  obtain ⟨h1, h2, h3, h4, h5, h6, h7, h8, h9, h10⟩ := hwf
  have hagree := iterate_leafNodes_agree strIdx index prev nodes A c h2
  have hlen := leafNodes_length strIdx index prev nodes A c
  refine ⟨?_, ?_, ?_, ?_, ?_, ?_, ?_, ?_, ?_, ?_⟩
  · rw [hlen]
    omega
  · intro id p hp
    rw [leafNodes_parent] at hp
    rw [hlen]
    by_cases hid : id = nodes.length
    · rw [if_pos hid] at hp
      have hap := Option.some.inj hp
      omega
    · rw [if_neg hid] at hp
      have := h2 id p hp
      omega
  · intro id q hq
    rw [hlen]
    rcases leafNodes_sl strIdx index prev nodes A c id q hq with h | h
    · omega
    · have := h3 id q h
      omega
  · intro p ch cid hc
    rw [leafNodes_edges strIdx index prev nodes A c hA] at hc
    rw [hlen]
    by_cases hpA : p = A
    · rw [if_pos hpA, edgesLookup_edgesInsert] at hc
      by_cases hch : ch = c
      · rw [if_pos hch] at hc
        have := Option.some.inj hc
        omega
      · rw [if_neg hch] at hc
        have := h4 A ch cid hc
        omega
    · rw [if_neg hpA] at hc
      by_cases hpn : p = nodes.length
      · rw [if_pos hpn] at hc
        exact Option.noConfusion hc
      · rw [if_neg hpn] at hc
        have := h4 p ch cid hc
        omega
  · intro p ch cid hc
    rw [leafNodes_edges strIdx index prev nodes A c hA] at hc
    rw [leafNodes_parent]
    by_cases hpA : p = A
    · subst hpA
      rw [if_pos rfl, edgesLookup_edgesInsert] at hc
      by_cases hch : ch = c
      · rw [if_pos hch] at hc
        rw [if_pos (Option.some.inj hc).symm]
      · rw [if_neg hch] at hc
        have hpar := h5 p ch cid hc
        have hlt := h4 p ch cid hc
        rw [if_neg (by omega)]
        exact hpar
    · rw [if_neg hpA] at hc
      by_cases hpn : p = nodes.length
      · rw [if_pos hpn] at hc
        exact Option.noConfusion hc
      · rw [if_neg hpn] at hc
        have hpar := h5 p ch cid hc
        have hlt := h4 p ch cid hc
        rw [if_neg (by omega)]
        exact hpar
  · intro p1 c1 p2 c2 cid hc1 hc2
    rw [leafNodes_edges strIdx index prev nodes A c hA] at hc1 hc2
    have key : ∀ (p : Nat) (ch : Char) (cd : Nat),
        edgesLookup
          (if p = A then edgesInsert (getN nodes A).edges c nodes.length
           else if p = nodes.length then [] else (getN nodes p).edges) ch =
          some cd →
        (p = A ∧ ch = c ∧ cd = nodes.length) ∨
          (edgesLookup (getN nodes p).edges ch = some cd ∧ cd < nodes.length) := by
      intro p ch cd hc
      by_cases hpA : p = A
      · subst hpA
        rw [if_pos rfl, edgesLookup_edgesInsert] at hc
        by_cases hch : ch = c
        · rw [if_pos hch] at hc
          exact Or.inl ⟨rfl, hch, (Option.some.inj hc).symm⟩
        · rw [if_neg hch] at hc
          exact Or.inr ⟨hc, h4 p ch cd hc⟩
      · rw [if_neg hpA] at hc
        by_cases hpn : p = nodes.length
        · rw [if_pos hpn] at hc
          exact Option.noConfusion hc
        · rw [if_neg hpn] at hc
          exact Or.inr ⟨hc, h4 p ch cd hc⟩
    rcases key p1 c1 cid hc1 with ⟨hp1, hcc1, hcid1⟩ | ⟨ho1, hlt1⟩ <;>
      rcases key p2 c2 cid hc2 with ⟨hp2, hcc2, hcid2⟩ | ⟨ho2, hlt2⟩
    · exact ⟨hp1.trans hp2.symm, hcc1.trans hcc2.symm⟩
    · omega
    · omega
    · exact h6 p1 c1 p2 c2 cid ho1 ho2
  · intro id
    rw [hlen]
    rcases Nat.lt_trichotomy id nodes.length with hlt | heq | hgt
    · obtain ⟨k, hk, hnone⟩ := h7 id
      refine ⟨k, by omega, ?_⟩
      rw [hagree k id hlt]
      exact hnone
    · obtain ⟨k, hk, hnone⟩ := h7 A
      refine ⟨k + 1, by omega, ?_⟩
      rw [Function.iterate_succ_apply]
      have hstep : parentStep (leafNodes strIdx index prev nodes A c)
          (some id) = some A := by
        show (getN (leafNodes strIdx index prev nodes A c) id).parent = some A
        rw [leafNodes_parent, if_pos heq]
      rw [hstep, hagree k A hA]
      exact hnone
    · refine ⟨1, by omega, ?_⟩
      rw [Function.iterate_one]
      show (getN (leafNodes strIdx index prev nodes A c) id).parent = none
      rw [leafNodes_parent, if_neg (by omega), getN_oob nodes id (by omega)]
      rfl
  · intro x hx
    rw [hlen]
    rcases List.mem_append.mp hx with h | h
    · have := h8 x h
      omega
    · rw [List.mem_singleton] at h
      omega
  · intro id hid
    rw [leafNodes_bv]
    have hid1 : id ∉ leaves := fun h => hid (List.mem_append_left _ h)
    have hid2 : id ≠ nodes.length := fun h =>
      hid (List.mem_append_right _ (by rw [h]; exact List.mem_singleton_self _))
    rw [if_neg hid2]
    exact h9 id hid1
  · rw [List.pairwise_append]
    refine ⟨?_, ?_, ?_⟩
    · refine List.Pairwise.imp_of_mem ?_ h10
      intro a b ha hb hab k hk
      rw [hagree (k + 1) a (h8 a ha)] at hk
      exact hab k hk
    · exact List.pairwise_singleton _ _
    · intro a ha b hb k hk
      rw [List.mem_singleton] at hb
      subst hb
      rw [hagree (k + 1) a (h8 a ha)] at hk
      have := iterate_lt nodes h2 (k + 1) a (h8 a ha) _ hk
      omega

theorem parentStep_splitNodes_old (input : List Char) (strIdx index : Nat)
    (prev : Option Nat) (nodes : List STNode) (A : Nat) (c : Char)
    (nextId alen : Nat) (hnext : nextId < nodes.length)
    (x : Nat) (hx1 : x < nodes.length) (hx2 : x ≠ nextId) :
    parentStep (splitNodes input strIdx index prev nodes A c nextId alen)
      (some x) = parentStep nodes (some x) := by
  show (getN (splitNodes input strIdx index prev nodes A c nextId alen) x).parent
    = (getN nodes x).parent
  rw [splitNodes_parent input strIdx index prev nodes A c nextId alen hnext,
    if_neg (by omega), if_neg hx2, if_neg (by omega)]

theorem parentStep_splitNodes_next (input : List Char) (strIdx index : Nat)
    (prev : Option Nat) (nodes : List STNode) (A : Nat) (c : Char)
    (nextId alen : Nat) (hnext : nextId < nodes.length) :
    parentStep (splitNodes input strIdx index prev nodes A c nextId alen)
      (some nextId) = some nodes.length := by
  show (getN (splitNodes input strIdx index prev nodes A c nextId alen)
    nextId).parent = some nodes.length
  rw [splitNodes_parent input strIdx index prev nodes A c nextId alen hnext,
    if_neg (by omega), if_pos rfl]

theorem parentStep_splitNodes_len (input : List Char) (strIdx index : Nat)
    (prev : Option Nat) (nodes : List STNode) (A : Nat) (c : Char)
    (nextId alen : Nat) (hnext : nextId < nodes.length) :
    parentStep (splitNodes input strIdx index prev nodes A c nextId alen)
      (some nodes.length) = some A := by
  show (getN (splitNodes input strIdx index prev nodes A c nextId alen)
    nodes.length).parent = some A
  rw [splitNodes_parent input strIdx index prev nodes A c nextId alen hnext,
    if_neg (by omega), if_neg (by omega), if_pos rfl]

theorem parentStep_splitNodes_len1 (input : List Char) (strIdx index : Nat)
    (prev : Option Nat) (nodes : List STNode) (A : Nat) (c : Char)
    (nextId alen : Nat) (hnext : nextId < nodes.length) :
    parentStep (splitNodes input strIdx index prev nodes A c nextId alen)
      (some (nodes.length + 1)) = some nodes.length := by
  show (getN (splitNodes input strIdx index prev nodes A c nextId alen)
    (nodes.length + 1)).parent = some nodes.length
  rw [splitNodes_parent input strIdx index prev nodes A c nextId alen hnext,
    if_pos rfl]

theorem iterate_splitNodes_agree (input : List Char) (strIdx index : Nat)
    (prev : Option Nat) (nodes : List STNode) (A : Nat) (c : Char)
    (nextId alen : Nat) (hnext : nextId < nodes.length)
    (hrange : ∀ id p, (getN nodes id).parent = some p → p < nodes.length) :
    ∀ (k x : Nat), x < nodes.length →
      (∀ w, w < k → (parentStep nodes)^[w] (some x) ≠ some nextId) →
      (parentStep (splitNodes input strIdx index prev nodes A c nextId alen))^[k]
        (some x) = (parentStep nodes)^[k] (some x) := by
  intro k
  induction k with
  | zero =>
      intro x hx hnv
      rfl
  | succ k ih =>
      intro x hx hnv
      rw [Function.iterate_succ_apply', Function.iterate_succ_apply',
        ih x hx (fun w hw => hnv w (by omega))]
      cases hval : (parentStep nodes)^[k] (some x) with
      | none => rfl
      | some m =>
          exact parentStep_splitNodes_old input strIdx index prev nodes A c
            nextId alen hnext m (iterate_lt nodes hrange k x hx m hval)
            (fun hm => hnv k (by omega) (by rw [hval, hm]))

theorem no_self_parent (nodes : List STNode) (A : Nat)
    (hterm : ∃ k, k ≤ nodes.length ∧ (parentStep nodes)^[k] (some A) = none) :
    (getN nodes A).parent ≠ some A := by
  intro hp
  obtain ⟨K, _, hK⟩ := hterm
  have hall : ∀ k, (parentStep nodes)^[k] (some A) = some A := by
    intro k
    induction k with
    | zero => rfl
    | succ k ih =>
        rw [Function.iterate_succ_apply', ih]
        exact hp
  rw [hall K] at hK
  exact Option.noConfusion hK

theorem chain_avoids_next (nodes : List STNode) (A nextId : Nat)
    (hparA : (getN nodes nextId).parent = some A)
    (hterm : ∃ k, k ≤ nodes.length ∧ (parentStep nodes)^[k] (some A) = none) :
    ∀ w, (parentStep nodes)^[w] (some A) ≠ some nextId := by
  intro w hw
  obtain ⟨K, _, hK⟩ := hterm
  have hw1 : (parentStep nodes)^[w + 1] (some A) = some A := by
    rw [Function.iterate_succ_apply', hw]
    exact hparA
  exact iterate_no_dup nodes (some A) K 0 (w + 1) A hK rfl hw1 (by omega)

/-- Chain behaviour of the arena after an edge split: every old chain
terminates within one extra step (the interposed split node), and every
strict new ancestor of an old node is the split node or an old strict
ancestor. -/
theorem splitNodes_chain_master (input : List Char) (strIdx index : Nat)
    (prev : Option Nat) (nodes : List STNode) (A : Nat) (c : Char)
    (nextId alen : Nat) (hA : A < nodes.length) (hnext : nextId < nodes.length)
    (hparA : (getN nodes nextId).parent = some A)
    (hrange : ∀ id p, (getN nodes id).parent = some p → p < nodes.length)
    (hterm : ∀ id, ∃ k, k ≤ nodes.length ∧
      (parentStep nodes)^[k] (some id) = none)
    (x : Nat) (hx : x < nodes.length) :
    (∃ K2, K2 ≤ nodes.length + 1 ∧
      (parentStep (splitNodes input strIdx index prev nodes A c nextId
        alen))^[K2] (some x) = none) ∧
    (∀ u y, 1 ≤ u →
      (parentStep (splitNodes input strIdx index prev nodes A c nextId
        alen))^[u] (some x) = some y →
      y = nodes.length ∨
        ∃ v, 1 ≤ v ∧ (parentStep nodes)^[v] (some x) = some y) := by
  obtain ⟨K, hKle, hK⟩ := hterm x
  have hA_avoid : ∀ w, (parentStep nodes)^[w] (some A) ≠ some nextId :=
    chain_avoids_next nodes A nextId hparA (hterm A)
  by_cases hvis : ∃ e, (parentStep nodes)^[e] (some x) = some nextId
  · set t := Nat.find hvis with htdef
    have ht : (parentStep nodes)^[t] (some x) = some nextId := Nat.find_spec hvis
    have hmin : ∀ w, w < t → (parentStep nodes)^[w] (some x) ≠ some nextId :=
      fun w hw => Nat.find_min hvis hw
    have htK : t < K := by
      by_contra hge
      rw [iterate_none_mono nodes K t _ hK (Nat.le_of_not_lt hge)] at ht
      exact Option.noConfusion ht
    have hagree_t : ∀ k, k ≤ t →
        (parentStep (splitNodes input strIdx index prev nodes A c nextId
          alen))^[k] (some x) = (parentStep nodes)^[k] (some x) :=
      fun k hk => iterate_splitNodes_agree input strIdx index prev nodes A c
        nextId alen hnext hrange k x hx (fun w hw => hmin w (by omega))
    have hsp_t : (parentStep (splitNodes input strIdx index prev nodes A c
        nextId alen))^[t] (some x) = some nextId := by
      rw [hagree_t t (le_refl t)]
      exact ht
    have hsp_t1 : (parentStep (splitNodes input strIdx index prev nodes A c
        nextId alen))^[t + 1] (some x) = some nodes.length := by
      rw [Function.iterate_succ_apply', hsp_t]
      exact parentStep_splitNodes_next input strIdx index prev nodes A c
        nextId alen hnext
    have hsp_t2 : (parentStep (splitNodes input strIdx index prev nodes A c
        nextId alen))^[t + 2] (some x) = some A := by
      rw [show t + 2 = (t + 1) + 1 from rfl, Function.iterate_succ_apply',
        hsp_t1]
      exact parentStep_splitNodes_len input strIdx index prev nodes A c
        nextId alen hnext
    have hold_t1 : (parentStep nodes)^[t + 1] (some x) = some A := by
      rw [Function.iterate_succ_apply', ht]
      exact hparA
    have hAagree : ∀ k,
        (parentStep (splitNodes input strIdx index prev nodes A c nextId
          alen))^[k] (some A) = (parentStep nodes)^[k] (some A) :=
      fun k => iterate_splitNodes_agree input strIdx index prev nodes A c
        nextId alen hnext hrange k A hA (fun w _ => hA_avoid w)
    have htail : ∀ dd,
        (parentStep (splitNodes input strIdx index prev nodes A c nextId
          alen))^[dd + (t + 2)] (some x) =
        (parentStep nodes)^[dd + (t + 1)] (some x) := by
      intro dd
      rw [Function.iterate_add_apply, hsp_t2, hAagree dd,
        Function.iterate_add_apply, hold_t1]
    constructor
    · have hfin := htail (K - (t + 1))
      rw [show K - (t + 1) + (t + 1) = K from by omega, hK] at hfin
      rw [show K - (t + 1) + (t + 2) = K + 1 from by omega] at hfin
      exact ⟨K + 1, by omega, hfin⟩
    · intro u y hu hy
      by_cases h1 : u ≤ t
      · rw [hagree_t u h1] at hy
        exact Or.inr ⟨u, hu, hy⟩
      · by_cases h2 : u = t + 1
        · subst h2
          rw [hsp_t1] at hy
          exact Or.inl (Option.some.inj hy).symm
        · have h3 : t + 2 ≤ u := by omega
          have hfin := htail (u - (t + 2))
          rw [show u - (t + 2) + (t + 2) = u from by omega, hy] at hfin
          rw [show u - (t + 2) + (t + 1) = u - 1 from by omega] at hfin
          exact Or.inr ⟨u - 1, by omega, hfin.symm⟩
  · have hagree : ∀ k,
        (parentStep (splitNodes input strIdx index prev nodes A c nextId
          alen))^[k] (some x) = (parentStep nodes)^[k] (some x) :=
      fun k => iterate_splitNodes_agree input strIdx index prev nodes A c
        nextId alen hnext hrange k x hx
        (fun w _ hw => hvis ⟨w, hw⟩)
    constructor
    · exact ⟨K, by omega, by rw [hagree K]; exact hK⟩
    · intro u y hu hy
      rw [hagree u] at hy
      exact Or.inr ⟨u, hu, hy⟩

theorem Wf_splitNodes (input : List Char) (strIdx index : Nat)
    (prev : Option Nat) (nodes : List STNode) (leaves : List Nat) (A : Nat)
    (c : Char) (nextId alen : Nat) (hwf : Wf nodes leaves)
    (hA : A < nodes.length)
    (hedge : edgesLookup (getN nodes A).edges c = some nextId) :
    Wf (splitNodes input strIdx index prev nodes A c nextId alen)
      (leaves ++ [nodes.length + 1]) := by
  obtain ⟨h1, h2, h3, h4, h5, h6, h7, h8, h9, h10⟩ := hwf
  have hnext : nextId < nodes.length := h4 A c nextId hedge
  have hparA : (getN nodes nextId).parent = some A := h5 A c nextId hedge
  have hlen := splitNodes_length input strIdx index prev nodes A c nextId alen
  have hmaster := splitNodes_chain_master input strIdx index prev nodes A c
    nextId alen hA hnext hparA h2 h7
  have hA_avoid : ∀ w, (parentStep nodes)^[w] (some A) ≠ some nextId :=
    chain_avoids_next nodes A nextId hparA (h7 A)
  have hAagree : ∀ k,
      (parentStep (splitNodes input strIdx index prev nodes A c nextId
        alen))^[k] (some A) = (parentStep nodes)^[k] (some A) :=
    fun k => iterate_splitNodes_agree input strIdx index prev nodes A c
      nextId alen hnext h2 k A hA (fun w _ => hA_avoid w)
  have hfromA : ∃ KA, KA ≤ nodes.length ∧
      (parentStep (splitNodes input strIdx index prev nodes A c nextId
        alen))^[KA] (some A) = none := by
    obtain ⟨KA, hKAle, hKA⟩ := h7 A
    exact ⟨KA, hKAle, by rw [hAagree KA]; exact hKA⟩
  have keyS : ∀ (p : Nat) (ch : Char) (cd : Nat),
      edgesLookup
        (getN (splitNodes input strIdx index prev nodes A c nextId alen)
          p).edges ch = some cd →
      (p = A ∧ ch = c ∧ cd = nodes.length) ∨
      (p = nodes.length ∧ ch = charAt input index ∧ cd = nodes.length + 1) ∨
      (p = nodes.length ∧
        ch = charAt input ((getN nodes nextId).start + alen) ∧ cd = nextId) ∨
      (edgesLookup (getN nodes p).edges ch = some cd ∧ cd < nodes.length ∧
        cd ≠ nextId) := by
    intro p ch cd hc
    rw [splitNodes_edges input strIdx index prev nodes A c nextId alen hA
      hnext] at hc
    by_cases hpA : p = A
    · subst hpA
      rw [if_pos rfl, edgesLookup_edgesInsert] at hc
      by_cases hch : ch = c
      · rw [if_pos hch] at hc
        exact Or.inl ⟨rfl, hch, (Option.some.inj hc).symm⟩
      · rw [if_neg hch] at hc
        refine Or.inr (Or.inr (Or.inr ⟨hc, h4 p ch cd hc, ?_⟩))
        intro hcd
        rw [hcd] at hc
        exact hch (h6 p ch p c nextId hc hedge).2
    · rw [if_neg hpA] at hc
      by_cases hpL : p = nodes.length
      · rw [if_pos hpL, edgesLookup_edgesInsert] at hc
        by_cases hch2 : ch = charAt input index
        · rw [if_pos hch2] at hc
          exact Or.inr (Or.inl ⟨hpL, hch2, (Option.some.inj hc).symm⟩)
        · rw [if_neg hch2, edgesLookup_edgesInsert] at hc
          by_cases hch1 : ch = charAt input ((getN nodes nextId).start + alen)
          · rw [if_pos hch1] at hc
            exact Or.inr (Or.inr (Or.inl ⟨hpL, hch1, (Option.some.inj hc).symm⟩))
          · rw [if_neg hch1] at hc
            exact Option.noConfusion hc
      · rw [if_neg hpL] at hc
        by_cases hpL1 : p = nodes.length + 1
        · rw [if_pos hpL1] at hc
          exact Option.noConfusion hc
        · rw [if_neg hpL1] at hc
          refine Or.inr (Or.inr (Or.inr ⟨hc, h4 p ch cd hc, ?_⟩))
          intro hcd
          rw [hcd] at hc
          exact hpA (h6 p ch A c nextId hc hedge).1
  refine ⟨?_, ?_, ?_, ?_, ?_, ?_, ?_, ?_, ?_, ?_⟩
  · rw [hlen]
    omega
  · intro id p hp
    rw [splitNodes_parent input strIdx index prev nodes A c nextId alen
      hnext] at hp
    rw [hlen]
    by_cases hid1 : id = nodes.length + 1
    · rw [if_pos hid1] at hp
      have := Option.some.inj hp
      omega
    · rw [if_neg hid1] at hp
      by_cases hid2 : id = nextId
      · rw [if_pos hid2] at hp
        have := Option.some.inj hp
        omega
      · rw [if_neg hid2] at hp
        by_cases hid3 : id = nodes.length
        · rw [if_pos hid3] at hp
          have := Option.some.inj hp
          omega
        · rw [if_neg hid3] at hp
          have := h2 id p hp
          omega
  · intro id q hq
    rw [hlen]
    rcases splitNodes_sl input strIdx index prev nodes A c nextId alen id q hq
      with h | h
    · omega
    · have := h3 id q h
      omega
  · intro p ch cid hc
    rw [hlen]
    rcases keyS p ch cid hc with ⟨_, _, h⟩ | ⟨_, _, h⟩ | ⟨_, _, h⟩ | ⟨_, h, _⟩ <;>
      omega
  · intro p ch cid hc
    rw [splitNodes_parent input strIdx index prev nodes A c nextId alen hnext]
    rcases keyS p ch cid hc with ⟨hp, hch, hcd⟩ | ⟨hp, hch, hcd⟩ |
      ⟨hp, hch, hcd⟩ | ⟨hco, hlt, hne⟩
    · rw [if_neg (by omega), if_neg (by omega), if_pos hcd, hp]
    · rw [if_pos hcd, hp]
    · rw [if_neg (by omega), if_pos hcd, hp]
    · rw [if_neg (by omega), if_neg hne, if_neg (by omega)]
      exact h5 p ch cid hco
  · intro p1 c1 p2 c2 cid hc1 hc2
    rcases keyS p1 c1 cid hc1 with ⟨e1, e2, e3⟩ | ⟨e1, e2, e3⟩ |
      ⟨e1, e2, e3⟩ | ⟨e1, e2, e3⟩ <;>
      rcases keyS p2 c2 cid hc2 with ⟨f1, f2, f3⟩ | ⟨f1, f2, f3⟩ |
        ⟨f1, f2, f3⟩ | ⟨f1, f2, f3⟩
    all_goals first
      | exact ⟨e1.trans f1.symm, e2.trans f2.symm⟩
      | exact h6 p1 c1 p2 c2 cid e1 f1
      | omega
  · intro id
    rw [hlen]
    rcases Nat.lt_trichotomy id nodes.length with hlt | heq | hgt
    · obtain ⟨K2, hK2le, hK2⟩ := (hmaster id hlt).1
      exact ⟨K2, by omega, hK2⟩
    · obtain ⟨KA, hKAle, hKA⟩ := hfromA
      refine ⟨KA + 1, by omega, ?_⟩
      rw [heq, Function.iterate_succ_apply,
        parentStep_splitNodes_len input strIdx index prev nodes A c nextId
          alen hnext]
      exact hKA
    · by_cases hgt1 : id = nodes.length + 1
      · obtain ⟨KA, hKAle, hKA⟩ := hfromA
        refine ⟨KA + 2, by omega, ?_⟩
        rw [hgt1, show KA + 2 = KA + 1 + 1 from rfl,
          Function.iterate_succ_apply,
          parentStep_splitNodes_len1 input strIdx index prev nodes A c nextId
            alen hnext,
          Function.iterate_succ_apply,
          parentStep_splitNodes_len input strIdx index prev nodes A c nextId
            alen hnext]
        exact hKA
      · refine ⟨1, by omega, ?_⟩
        rw [Function.iterate_one]
        show (getN (splitNodes input strIdx index prev nodes A c nextId alen)
          id).parent = none
        rw [splitNodes_parent input strIdx index prev nodes A c nextId alen
          hnext, if_neg hgt1, if_neg (by omega), if_neg (by omega),
          getN_oob nodes id (by omega)]
        rfl
  · intro x hx
    rw [hlen]
    rcases List.mem_append.mp hx with h | h
    · have := h8 x h
      omega
    · rw [List.mem_singleton] at h
      omega
  · intro id hid
    rw [splitNodes_bv]
    have hid1 : id ∉ leaves := fun h => hid (List.mem_append_left _ h)
    have hid2 : id ≠ nodes.length + 1 := fun h =>
      hid (List.mem_append_right _ (by rw [h]; exact List.mem_singleton_self _))
    rw [if_neg hid2]
    by_cases hidL : id = nodes.length
    · rw [if_pos hidL]
    · rw [if_neg hidL]
      exact h9 id hid1
  · rw [List.pairwise_append]
    refine ⟨?_, List.pairwise_singleton _ _, ?_⟩
    · refine List.Pairwise.imp_of_mem ?_ h10
      intro a b ha hb hab k hk
      rcases (hmaster a (h8 a ha)).2 (k + 1) b (by omega) hk with hbL |
        ⟨v, hv1, hv⟩
      · have := h8 b hb
        omega
      · have hcon := hab (v - 1)
        rw [Nat.sub_add_cancel hv1] at hcon
        exact hcon hv
    · intro a ha b hb k hk
      rw [List.mem_singleton] at hb
      subst hb
      rcases (hmaster a (h8 a ha)).2 (k + 1) _ (by omega) hk with hbL |
        ⟨v, hv1, hv⟩
      · omega
      · have := iterate_lt nodes h2 v a (h8 a ha) _ hv
        omega

theorem makeLeaf_nodes_eq (strIdx index : Nat) (prev : Option Nat)
    (st : UkkState) (c : Char) :
    (makeLeaf strIdx index prev st c).nodes =
      leafNodes strIdx index prev st.nodes st.active_node c := rfl

theorem makeSplit_nodes_eq (input : List Char) (strIdx index : Nat)
    (prev : Option Nat) (st : UkkState) (c : Char) (nextId : Nat) :
    (makeSplit input strIdx index prev st c nextId).nodes =
      splitNodes input strIdx index prev st.nodes st.active_node c nextId
        st.active_length := rfl

theorem followLink_active (index : Nat) (st : UkkState) :
    (followLink index st).active_node = st.active_node ∨
    (followLink index st).active_node =
      ((getN st.nodes st.active_node).suffix_link).getD 0 := by
  unfold followLink
  split
  · exact Or.inl rfl
  · exact Or.inr rfl

theorem followLink_active_lt (index : Nat) (st : UkkState)
    (hsl : ∀ id q, (getN st.nodes id).suffix_link = some q →
      q < st.nodes.length)
    (hroot : 1 ≤ st.nodes.length) (hA : st.active_node < st.nodes.length) :
    (followLink index st).active_node < (followLink index st).nodes.length := by
  rw [(followLink_fields index st).1]
  rcases followLink_active index st with h | h
  · rw [h]
    exact hA
  · rw [h]
    cases hq : (getN st.nodes st.active_node).suffix_link with
    | none => simpa using hroot
    | some q => simpa using hsl st.active_node q hq

theorem wf_step_leaf (input : List Char) (strIdx index : Nat)
    (prev : Option Nat) (st : UkkState) (oldLeaves : List Nat) (c : Char)
    (hwf : Wf st.nodes (oldLeaves ++ st.new_leaves))
    (hA : st.active_node < st.nodes.length) :
    UkkWf oldLeaves (followLink index (makeLeaf strIdx index prev st c)) := by
  have hwf' : Wf (makeLeaf strIdx index prev st c).nodes
      (oldLeaves ++ (makeLeaf strIdx index prev st c).new_leaves) := by
    rw [makeLeaf_nodes_eq, makeLeaf_new_leaves, ← List.append_assoc]
    exact Wf_leafNodes strIdx index prev st.nodes (oldLeaves ++ st.new_leaves)
      st.active_node c hwf hA
  constructor
  · rw [(followLink_fields index _).1, (followLink_fields index _).2.1]
    exact hwf'
  · have hAlt : (makeLeaf strIdx index prev st c).active_node <
        (makeLeaf strIdx index prev st c).nodes.length := by
      rw [makeLeaf_nodes_length]
      show st.active_node < st.nodes.length + 1
      omega
    exact followLink_active_lt index _ hwf'.2.2.1 hwf'.1 hAlt

theorem wf_step_split (input : List Char) (strIdx index : Nat)
    (prev : Option Nat) (st : UkkState) (oldLeaves : List Nat) (c : Char)
    (nextId : Nat) (hwf : Wf st.nodes (oldLeaves ++ st.new_leaves))
    (hA : st.active_node < st.nodes.length)
    (hedge : edgesLookup (getN st.nodes st.active_node).edges c = some nextId) :
    UkkWf oldLeaves
      (followLink index (makeSplit input strIdx index prev st c nextId)) := by
  have hwf' : Wf (makeSplit input strIdx index prev st c nextId).nodes
      (oldLeaves ++ (makeSplit input strIdx index prev st c nextId).new_leaves) := by
    rw [makeSplit_nodes_eq, makeSplit_new_leaves, ← List.append_assoc]
    exact Wf_splitNodes input strIdx index prev st.nodes
      (oldLeaves ++ st.new_leaves) st.active_node c nextId st.active_length
      hwf hA hedge
  constructor
  · rw [(followLink_fields index _).1, (followLink_fields index _).2.1]
    exact hwf'
  · have hAlt : (makeSplit input strIdx index prev st c nextId).active_node <
        (makeSplit input strIdx index prev st c nextId).nodes.length := by
      rw [makeSplit_nodes_length]
      show st.active_node < st.nodes.length + 2
      omega
    exact followLink_active_lt index _ hwf'.2.2.1 hwf'.1 hAlt

theorem ukkStep_wf (input : List Char) (strIdx index : Nat)
    (prev : Option Nat) (oldLeaves : List Nat) (st : UkkState)
    (hwf : UkkWf oldLeaves st) :
    UkkWf oldLeaves (stepState (ukkStep input strIdx index prev st)) := by
  obtain ⟨hW, hAlt⟩ := hwf
  simp only [ukkStep]
  split
  · by_cases h0 : st.active_length = 0
    · rw [if_pos h0]
      exact wf_step_leaf input strIdx index prev _ oldLeaves _ hW hAlt
    · rw [if_neg h0]
      exact wf_step_leaf input strIdx index prev _ oldLeaves _ hW hAlt
  · rename_i nextId heq
    by_cases h0 : st.active_length = 0
    · rw [if_pos h0] at heq ⊢
      split
      · exact ⟨hW, hW.2.2.2.1 _ _ _ heq⟩
      · split
        · refine ⟨Wf_linkPrev _ _ prev st.active_node hW hAlt, ?_⟩
          show st.active_node < (linkPrev st.nodes prev st.active_node).length
          rw [linkPrev_length]
          exact hAlt
        · exact wf_step_split input strIdx index prev _ oldLeaves _ _ hW
            hAlt heq
    · rw [if_neg h0] at heq ⊢
      split
      · exact ⟨hW, hW.2.2.2.1 _ _ _ heq⟩
      · split
        · refine ⟨Wf_linkPrev _ _ prev st.active_node hW hAlt, ?_⟩
          show st.active_node < (linkPrev st.nodes prev st.active_node).length
          rw [linkPrev_length]
          exact hAlt
        · exact wf_step_split input strIdx index prev _ oldLeaves _ _ hW
            hAlt heq

theorem ukkInner_wf (input : List Char) (strIdx index : Nat)
    (oldLeaves : List Nat) :
    ∀ (fuel : Nat) (prev : Option Nat) (st : UkkState),
      UkkWf oldLeaves st →
      UkkWf oldLeaves (ukkInner input strIdx index fuel prev st) := by
  intro fuel
  induction fuel with
  | zero =>
      intro prev st h
      exact h
  | succ fuel ih =>
      intro prev st h
      rw [ukkInner_succ]
      by_cases h0 : st.remainder = 0
      · rw [if_pos h0]
        exact h
      · rw [if_neg h0]
        have hstep := ukkStep_wf input strIdx index prev oldLeaves st h
        cases hs : ukkStep input strIdx index prev st with
        | stop st' =>
            rw [hs] at hstep
            exact hstep
        | next p st' =>
            rw [hs] at hstep
            exact ih p st' hstep

theorem ukkOuter_wf (input : List Char) (strIdx fuel : Nat)
    (oldLeaves : List Nat) :
    ∀ (idxs : List Nat) (st : UkkState),
      UkkWf oldLeaves st →
      UkkWf oldLeaves (ukkOuter input strIdx fuel idxs st) := by
  intro idxs
  induction idxs with
  | nil =>
      intro st h
      exact h
  | cons i rest ih =>
      intro st h
      show UkkWf oldLeaves (ukkOuter input strIdx fuel rest
        (ukkInner input strIdx i fuel none
          { st with remainder := st.remainder + 1 }))
      exact ih _ (ukkInner_wf input strIdx i oldLeaves fuel none _ h)

theorem appendUkk_wf (t : SuffixTree) (s : List Char) (hwf : TreeWf t) :
    UkkWf t.leaves (appendUkk t s) := by
  refine ukkOuter_wf _ _ _ t.leaves _ _ ?_
  constructor
  · show Wf t.nodes (t.leaves ++ [])
    rw [List.append_nil]
    exact hwf
  · show (0 : Nat) < t.nodes.length
    have := hwf.1
    omega

theorem finalize_fold_fields (elen : Nat) :
    ∀ (L : List Nat) (nodes : List STNode),
      (L.foldl (fun ns l => modifyN ns l (fun n => { n with endIdx := elen }))
        nodes).length = nodes.length ∧
      ∀ j,
        (getN (L.foldl
          (fun ns l => modifyN ns l (fun n => { n with endIdx := elen }))
          nodes) j).parent = (getN nodes j).parent ∧
        (getN (L.foldl
          (fun ns l => modifyN ns l (fun n => { n with endIdx := elen }))
          nodes) j).edges = (getN nodes j).edges ∧
        (getN (L.foldl
          (fun ns l => modifyN ns l (fun n => { n with endIdx := elen }))
          nodes) j).suffix_link = (getN nodes j).suffix_link ∧
        (getN (L.foldl
          (fun ns l => modifyN ns l (fun n => { n with endIdx := elen }))
          nodes) j).bit_vector = (getN nodes j).bit_vector := by
  intro L
  induction L with
  | nil =>
      intro nodes
      exact ⟨rfl, fun j => ⟨rfl, rfl, rfl, rfl⟩⟩
  | cons x rest ih =>
      intro nodes
      rw [List.foldl_cons]
      obtain ⟨hlen, hfields⟩ :=
        ih (modifyN nodes x (fun n => { n with endIdx := elen }))
      refine ⟨hlen.trans (length_modifyN _ _ _), fun j => ?_⟩
      obtain ⟨hp, he, hs, hb⟩ := hfields j
      refine ⟨hp.trans ?_, he.trans ?_, hs.trans ?_, hb.trans ?_⟩ <;>
        (rw [getN_modifyN]; split <;> rfl)

theorem Wf_congr (a b : List STNode) (leaves : List Nat)
    (hlen : b.length = a.length)
    (hp : ∀ j, (getN b j).parent = (getN a j).parent)
    (he : ∀ j, (getN b j).edges = (getN a j).edges)
    (hs : ∀ j, (getN b j).suffix_link = (getN a j).suffix_link)
    (hb : ∀ j, (getN b j).bit_vector = (getN a j).bit_vector)
    (hwf : Wf a leaves) : Wf b leaves := by
  obtain ⟨h1, h2, h3, h4, h5, h6, h7, h8, h9, h10⟩ := hwf
  have hps : ∀ o, parentStep b o = parentStep a o := by
    intro o
    cases o with
    | none => rfl
    | some id => exact hp id
  have hit := iterate_parentStep_congr hps
  refine ⟨by omega, ?_, ?_, ?_, ?_, ?_, ?_, ?_, ?_, ?_⟩
  · intro id p hpp
    rw [hp] at hpp
    rw [hlen]
    exact h2 id p hpp
  · intro id q hq
    rw [hs] at hq
    rw [hlen]
    exact h3 id q hq
  · intro p ch cid hc
    rw [he] at hc
    rw [hlen]
    exact h4 p ch cid hc
  · intro p ch cid hc
    rw [he] at hc
    rw [hp]
    exact h5 p ch cid hc
  · intro p1 c1 p2 c2 cid hc1 hc2
    rw [he] at hc1 hc2
    exact h6 p1 c1 p2 c2 cid hc1 hc2
  · intro id
    obtain ⟨k, hk, hnone⟩ := h7 id
    exact ⟨k, by omega, by rw [hit]; exact hnone⟩
  · intro x hx
    rw [hlen]
    exact h8 x hx
  · intro id hid
    rw [hb]
    exact h9 id hid
  · refine List.Pairwise.imp ?_ h10
    intro x y hxy k hk
    rw [hit] at hk
    exact hxy k hk

theorem append_string_wf (t : SuffixTree) (s : List Char)
    (class_id : Option String) (hwf : TreeWf t) :
    TreeWf (append_string t s class_id) := by
  have hu := appendUkk_wf t s hwf
  show Wf (append_string t s class_id).nodes (append_string t s class_id).leaves
  rw [append_string_nodes, append_string_leaves]
  have hf := finalize_fold_fields
    (t.input_string ++ appendedOf t.strings_count s).length
    (appendUkk t s).new_leaves (appendUkk t s).nodes
  exact Wf_congr _ _ _ hf.1 (fun j => (hf.2 j).1) (fun j => (hf.2 j).2.1)
    (fun j => (hf.2 j).2.2.1) (fun j => (hf.2 j).2.2.2) hu.1

theorem Wf_empty : Wf SuffixTree.empty.nodes SuffixTree.empty.leaves := by
  have hget : ∀ id, (getN SuffixTree.empty.nodes id).parent = none ∧
      (getN SuffixTree.empty.nodes id).suffix_link = none ∧
      (getN SuffixTree.empty.nodes id).edges = [] ∧
      (getN SuffixTree.empty.nodes id).bit_vector = 0 := by
    intro id
    match id with
    | 0 => exact ⟨rfl, rfl, rfl, rfl⟩
    | n + 1 =>
        rw [getN_oob _ _ (show SuffixTree.empty.nodes.length ≤ n + 1 from
          by show 1 ≤ n + 1; omega)]
        exact ⟨rfl, rfl, rfl, rfl⟩
  refine ⟨Nat.le_refl 1, ?_, ?_, ?_, ?_, ?_, ?_, ?_, ?_, ?_⟩
  · intro id p hp
    rw [(hget id).1] at hp
    exact Option.noConfusion hp
  · intro id q hq
    rw [(hget id).2.1] at hq
    exact Option.noConfusion hq
  · intro p ch cid hc
    rw [(hget p).2.2.1] at hc
    exact Option.noConfusion hc
  · intro p ch cid hc
    rw [(hget p).2.2.1] at hc
    exact Option.noConfusion hc
  · intro p1 c1 p2 c2 cid hc1 hc2
    rw [(hget p1).2.2.1] at hc1
    exact Option.noConfusion hc1
  · intro id
    refine ⟨1, Nat.le_refl 1, ?_⟩
    rw [Function.iterate_one]
    show (getN SuffixTree.empty.nodes id).parent = none
    exact (hget id).1
  · intro x hx
    exact absurd hx (List.not_mem_nil x)
  · intro id _
    exact (hget id).2.2.2
  · exact List.Pairwise.nil

theorem buildTree_go_wf (inputs : List (List Char × Option String)) :
    ∀ t : SuffixTree, TreeWf t →
      TreeWf (inputs.foldl (fun t p => append_string t p.1 p.2) t) := by
  induction inputs with
  | nil =>
      intro t h
      exact h
  | cons x xs ih =>
      intro t h
      rw [List.foldl_cons]
      exact ih _ (append_string_wf t x.1 x.2 h)

theorem buildTree_wf (inputs : List (List Char × Option String)) :
    TreeWf (buildTree inputs) :=
  buildTree_go_wf inputs SuffixTree.empty Wf_empty

/-- C9: propagation reaches the full fixpoint despite early termination.
For every tree built by a sequence of append_string calls (any strings,
any optional class ids) and every min_substr_len, each recorded leaf
carries the single bit 2^i of the string i it belongs to, and after the
first call to find_common_substrings completes every node's bit vector
equals the bitwise OR, over all recorded leaves whose parent chain passes
through that node (i.e. the leaves in the node's subtree), of the leaf's
bit vector — the early break of the upward walk loses no contribution. -/
theorem C9_full_propagation (inputs : List (List Char × Option String))
    (m : Nat) :
    (∀ l ∈ (buildTree inputs).leaves,
      ∃ i, i < (buildTree inputs).strings_count ∧
        (getN (buildTree inputs).nodes l).bit_vector = 2 ^ i) ∧
    ∀ id,
      (getN (find_common_substrings (buildTree inputs) m).2.nodes
        id).bit_vector =
        subtreeOr (buildTree inputs).nodes (buildTree inputs).leaves id :=
  ⟨fun l hl => (buildTree_leavesOk inputs l hl).2,
    find_propagates (buildTree inputs) m (buildTree_wf inputs)⟩

end QLCS
